import Mathlib

/-!
Verification development for the schema-derivation engine
`src/lib/transformer/util/getSchemaByType.ts` of egg-controller.

The TypeScript source is shallowly embedded: `ts.Type` values become the
inductive `Ty` (nominal class/interface types are identified by an index
into an environment `Env` of declarations, which is how object identity
`c.type === type` and cyclic type graphs are represented), the mutable
per-traversal context `{schemaObjects, typeCache}` becomes an explicitly
threaded `GetSchemaConfig`, the `extendClass` flag of the config is an
explicit boolean parameter, JavaScript exceptions become `Res.err`, and
general recursion is driven by an explicit fuel parameter (`Res.fuel`
meaning fuel exhaustion, i.e. the modelled computation was cut short).
-/

set_option maxHeartbeats 4000000

/-- Literal value carried by an enum-literal type (`(t as ts.LiteralType).value`
can be a string or a number). -/
inductive LitVal where
  | str (s : String)
  | num (n : Int)
deriving DecidableEq, Repr

/-- OpenAPI schema fragment (`SchemaObject`/`ReferenceObject` of openapi3-ts,
restricted to the keys `getSchemaByType.ts` actually writes).  A `ReferenceObject`
is a `SchemaObject` whose `ref` field is set; `ref` models the `$ref` key and
stores the full `#/components/schemas/<name>` string built at source line 106/139. -/
inductive SchemaObject where
  | mk (description : Option String) (type : Option String) (format : Option String)
      (enum : Option (List LitVal)) (items : Option SchemaObject)
      (oneOf : Option (List SchemaObject)) (allOf : Option (List SchemaObject))
      (properties : Option (List (String × SchemaObject)))
      (required : Option (List String))
      (additionalProperties : Option SchemaObject)
      (ref : Option String)
deriving Repr

def SchemaObject.description : SchemaObject → Option String
  | .mk d _ _ _ _ _ _ _ _ _ _ => d

def SchemaObject.type : SchemaObject → Option String
  | .mk _ t _ _ _ _ _ _ _ _ _ => t

def SchemaObject.format : SchemaObject → Option String
  | .mk _ _ f _ _ _ _ _ _ _ _ => f

def SchemaObject.enum : SchemaObject → Option (List LitVal)
  | .mk _ _ _ e _ _ _ _ _ _ _ => e

def SchemaObject.items : SchemaObject → Option SchemaObject
  | .mk _ _ _ _ i _ _ _ _ _ _ => i

def SchemaObject.oneOf : SchemaObject → Option (List SchemaObject)
  | .mk _ _ _ _ _ o _ _ _ _ _ => o

def SchemaObject.allOf : SchemaObject → Option (List SchemaObject)
  | .mk _ _ _ _ _ _ a _ _ _ _ => a

def SchemaObject.properties : SchemaObject → Option (List (String × SchemaObject))
  | .mk _ _ _ _ _ _ _ p _ _ _ => p

def SchemaObject.required : SchemaObject → Option (List String)
  | .mk _ _ _ _ _ _ _ _ r _ _ => r

def SchemaObject.additionalProperties : SchemaObject → Option SchemaObject
  | .mk _ _ _ _ _ _ _ _ _ ap _ => ap

def SchemaObject.ref : SchemaObject → Option String
  | .mk _ _ _ _ _ _ _ _ _ _ rf => rf

/-- Replace the `description` field, keeping all other fields. -/
def SchemaObject.withDescription : SchemaObject → Option String → SchemaObject
  | .mk _ t f e i o a p r ap rf, d => .mk d t f e i o a p r ap rf

mutual
/-- Structural equality of schema fragments, written by hand because the
nested recursion defeats the `DecidableEq` deriver. -/
def schemaBEq : SchemaObject → SchemaObject → Bool
  | .mk d1 t1 f1 e1 i1 o1 a1 p1 r1 ap1 rf1, .mk d2 t2 f2 e2 i2 o2 a2 p2 r2 ap2 rf2 =>
    d1 == d2 && t1 == t2 && f1 == f2 && e1 == e2 && optSchemaBEq i1 i2 &&
    optListSchemaBEq o1 o2 && optListSchemaBEq a1 a2 && optPropsBEq p1 p2 &&
    r1 == r2 && optSchemaBEq ap1 ap2 && rf1 == rf2
termination_by structural s1 _ => s1

def optSchemaBEq : Option SchemaObject → Option SchemaObject → Bool
  | none, none => true
  | some a, some b => schemaBEq a b
  | _, _ => false
termination_by structural s1 _ => s1

def listSchemaBEq : List SchemaObject → List SchemaObject → Bool
  | [], [] => true
  | a :: as_, b :: bs => schemaBEq a b && listSchemaBEq as_ bs
  | _, _ => false
termination_by structural s1 _ => s1

def optListSchemaBEq : Option (List SchemaObject) → Option (List SchemaObject) → Bool
  | none, none => true
  | some a, some b => listSchemaBEq a b
  | _, _ => false
termination_by structural s1 _ => s1

def propsBEq : List (String × SchemaObject) → List (String × SchemaObject) → Bool
  | [], [] => true
  | (k1, v1) :: as_, (k2, v2) :: bs => k1 == k2 && schemaBEq v1 v2 && propsBEq as_ bs
  | _, _ => false
termination_by structural s1 _ => s1

def optPropsBEq : Option (List (String × SchemaObject)) → Option (List (String × SchemaObject)) → Bool
  | none, none => true
  | some a, some b => propsBEq a b
  | _, _ => false
termination_by structural s1 _ => s1
end

/-- Member accessibility modifiers checked at source lines 166-168
(`ts.SyntaxKind.PrivateKeyword`, `ts.SyntaxKind.ProtectedKeyword`). -/
inductive Modifier where
  | privateKeyword
  | protectedKeyword
  | otherModifier
deriving DecidableEq, Repr

/-- Shape of `symbol.valueDeclaration` as far as the source inspects it:
which `ts.isMethodDeclaration`/`ts.isMethodSignature`/`ts.isArrowFunction`
predicate it satisfies (lines 184-186). -/
inductive DeclKind where
  | methodDeclaration
  | methodSignature
  | arrowFunction
  | propertyLike
deriving DecidableEq, Repr

/-- The fields of `symbol.valueDeclaration` the source reads: its modifier
list (possibly absent), its `questionToken` optionality marker, and its
syntactic kind. -/
structure ValueDecl where
  modifiers : Option (List Modifier)
  questionToken : Bool
  kind : DeclKind
deriving DecidableEq, Repr

mutual
/-- Embedding of `ts.Type` restricted to what the source observes.
`promise` is a type whose `symbol.escapedName` is `'Promise'` together with
its first type argument (line 26-28); `arr` is a type recognised by the
`isArrayType` helper together with `typeArguments[0]` (lines 36-41);
`union b ms` is a union type, with `b` modelling the `ts.TypeFlags.Boolean`
flag (TypeScript represents `boolean` as a flagged two-literal union, line
42-47); `nominal id` is a class/interface type whose object identity is the
index `id` into the ambient declaration environment; `anon` is a type with
`ts.ObjectFlags.Anonymous` carrying its properties and index signatures, with
`symbolDeclIsArrowFn` modelling whether `symbol.valueDeclaration` is an
`ArrowFunction` (checked at lines 203-204); `other` is any remaining type,
carrying its `typeChecker.typeToString` rendering. -/
inductive Ty where
  | promise (arg : Ty)
  | arr (elem : Ty)
  | union (boolFlag : Bool) (members : List Ty)
  | intersection (members : List Ty)
  | enumLiteral (value : LitVal)
  | nominal (id : Nat)
  | anon (symbolDeclIsArrowFn : Bool) (members : List Member)
      (numberIndexType : Option Ty) (stringIndexType : Option Ty)
  | other (text : String)
/-- One property symbol as the source observes it: `escapedName`, the
documentation comment `getComment(symbol)`, the optional `valueDeclaration`,
the optional internal `symbol.type || symbol.target.type` (line 192), and the
checker-resolved `getTypeAtLocation(valueDeclaration)` (line 196, only
consulted when a value declaration exists). -/
inductive Member where
  | mk (name : String) (comment : Option String) (valueDecl : Option ValueDecl)
      (symbolType : Option Ty) (locationType : Ty)
end

def Member.name : Member → String
  | .mk n _ _ _ _ => n

def Member.comment : Member → Option String
  | .mk _ c _ _ _ => c

def Member.valueDecl : Member → Option ValueDecl
  | .mk _ _ vd _ _ => vd

def Member.symbolType : Member → Option Ty
  | .mk _ _ _ st _ => st

def Member.locationType : Member → Ty
  | .mk _ _ _ _ lt => lt

/-- Declaration of a nominal class/interface type: its `symbol.escapedName`,
its `getProperties()` list, and its `getNumberIndexType()` /
`getStringIndexType()` results. -/
structure Decl where
  name : String
  members : List Member
  numberIndexType : Option Ty
  stringIndexType : Option Ty

/-- The type-information provider: declaration `id` of `Ty.nominal id`
resolves through this list.  Cycles in the type graph are exactly the
cycles formed through these indices. -/
abbrev Env := List Decl

/-- A `ts.Type` always carries its declaration; an out-of-range index (which
cannot arise from a well-formed graph, see `tyWF`) falls back to an empty
anonymous declaration. -/
def declOf (env : Env) (id : Nat) : Decl :=
  (env.get? id).getD ⟨"", [], none, none⟩

/-- Source interface `TypeCache` (lines 8-13).  The `type` field holds the
object identity of the cached `ts.Type`, i.e. the nominal index. -/
structure TypeCache where
  typeName : String
  schemaName : String
  type : Nat
  hashCode : Option SchemaObject
deriving Repr

/-- Source interface `GetSchemaConfig` (lines 15-20) restricted to the two
shared mutable collections.  `typeChecker` is the ambient `Env` parameter and
the `extendClass` flag is passed separately, because object spreads in the
source (`{...config, extendClass: b}`) copy the flag while aliasing the two
collections. -/
structure GetSchemaConfig where
  schemaObjects : List (String × SchemaObject)
  typeCache : List TypeCache
deriving Repr

/-- Result of a modelled computation: normal return with the threaded
context, a thrown JavaScript exception, or fuel exhaustion (the modelled
run was cut short; no TypeScript behaviour corresponds to this). -/
inductive Res (α : Type) where
  | ok (a : α) (config : GetSchemaConfig)
  | err (msg : String)
  | fuel
deriving Repr

/-- `schemaObjects[k]` read access (JS object property lookup). -/
def lookupKey (m : List (String × SchemaObject)) (k : String) : Option SchemaObject :=
  (m.find? (fun p => p.1 == k)).map (fun p => p.2)

/-- `schemaObjects[k] = v` write access: JS assignment replaces the value of
an existing key in place and otherwise appends a new key in insertion order. -/
def setKey (m : List (String × SchemaObject)) (k : String) (v : SchemaObject) :
    List (String × SchemaObject) :=
  match m with
  | [] => [(k, v)]
  | p :: rest => if p.1 == k then (k, v) :: rest else p :: setKey rest k v

/-- In-place update of the array element at index `n`
(`cacheData.hashCode = hashCode` mutates the entry pushed earlier). -/
def modifyAt (l : List TypeCache) (n : Nat) (f : TypeCache → TypeCache) : List TypeCache :=
  match l, n with
  | [], _ => []
  | x :: xs, 0 => f x :: xs
  | x :: xs, n + 1 => x :: modifyAt xs n f

/-- The suffix-probing loop of source lines 114-117: starting at `i`, return
`base_i` for the first `i` whose name is not yet a key.  The `while` loop of
the source is unbounded; the model bounds it by explicit fuel, and
`allocateSchemaName` supplies fuel that provably suffices (`length + 1`
candidates cannot all be keys of a `length`-element map). -/
def probeName (m : List (String × SchemaObject)) (base : String) : Nat → Nat → String
  | i, 0 => base ++ "_" ++ Nat.repr i
  | i, f + 1 =>
    if (lookupKey m (base ++ "_" ++ Nat.repr i)).isSome then probeName m base (i + 1) f
    else base ++ "_" ++ Nat.repr i

/-- Name allocation of source lines 112-119: the declared name if free,
otherwise the first free `name_i` with `i` counting up from 1. -/
def allocateSchemaName (m : List (String × SchemaObject)) (typeName : String) : String :=
  if (lookupKey m typeName).isSome then probeName m typeName 1 (m.length + 1)
  else typeName

/-- Modelled from the spec: `getHashCode` (a repository module outside
`src/`) computes "a structural content hash over the expanded fragment"
(spec section 4.2 step 5); it is modelled as the perfect structural hash, the
fragment itself, compared with `schemaBEq`. -/
def getHashCode (schema : SchemaObject) : SchemaObject := schema

/-- Modelled from the spec: `getComment` (a repository module outside
`src/`) is the "documentation-comment lookup" external collaborator (spec
sections 1 and 6); comments at the type level are modelled as absent, so the
`defaultSchemaObject` of source line 30-34 is always the empty fragment, while
member-level comments are carried by `Member.comment`. -/
def getComment (_ty : Ty) : Option String := none

/-- `symbol.escapedName` of a type, as read at source lines 26, 73, 110
and 198. -/
def symName (env : Env) : Ty → Option String
  | .promise _ => some "Promise"
  | .nominal id => some (declOf env id).name
  | _ => none

/-- Whether `type.symbol.valueDeclaration` exists and is an arrow function
(source lines 203-204). -/
def symbolValueDeclIsArrow : Ty → Bool
  | .anon b _ _ _ => b
  | _ => false

/-- Modelled from the spec: `typeChecker.typeToString`, the provider's
"textual rendering function for fallback cases" (spec section 6), a
best-effort rendering. -/
def typeToString (env : Env) : Ty → String
  | .promise a => "Promise<" ++ typeToString env a ++ ">"
  | .arr e => typeToString env e ++ "[]"
  | .union _ _ => "union"
  | .intersection _ => "intersection"
  | .enumLiteral (.str s) => "\"" ++ s ++ "\""
  | .enumLiteral (.num n) => toString n
  | .nominal id => (declOf env id).name
  | .anon _ _ _ _ => "object"
  | .other s => s

/-- `t.flags & ts.TypeFlags.EnumLiteral` of source line 50. -/
def isEnumLiteralTy : Ty → Bool
  | .enumLiteral _ => true
  | _ => false

/-- `(t as ts.LiteralType).value` of source lines 54-55; the cast is only
exercised under the all-enum-literal guard, any other type yields the
JavaScript `undefined`, modelled as the empty string literal. -/
def enumValue : Ty → LitVal
  | .enumLiteral v => v
  | _ => .str ""

/-- The empty schema fragment. -/
def SchemaObject.empty : SchemaObject :=
  .mk none none none none none none none none none none none

/-- The `ReferenceObject` built at source lines 105-107 and 138-140. -/
def refSchema (name : String) : SchemaObject :=
  .mk none none none none none none none none none none
    (some ("#/components/schemas/" ++ name))

/-- The accessibility filter of source lines 162-169: a symbol survives when
it has no value declaration, or the declaration has no modifier list, or no
modifier is `private`/`protected`. -/
def memberKept (m : Member) : Bool :=
  match m.valueDecl with
  | none => true
  | some vd =>
    match vd.modifiers with
    | none => true
    | some mods =>
      !(mods.any (fun md => md == .privateKeyword || md == .protectedKeyword))

/-- The method test of source lines 182-187. -/
def isMethodLike (m : Member) : Bool :=
  match m.valueDecl with
  | some vd =>
    vd.kind == .methodDeclaration || vd.kind == .methodSignature ||
      vd.kind == .arrowFunction
  | none => false

/-- `getValue(() => (symbol.valueDeclaration as any).questionToken)` of
source line 173: absent declarations read as absent question token. -/
def hasQuestionToken (m : Member) : Bool :=
  (m.valueDecl.map (fun vd => vd.questionToken)).getD false

/-- The property fragment stored by `setProp` (source lines 172-180):
`{ description: getComment(symbol), ...value }`, i.e. the derived fragment
with the member comment as description unless the fragment carries one. -/
def setPropFragment (m : Member) (value : SchemaObject) : SchemaObject :=
  value.withDescription (value.description.orElse (fun _ => m.comment))

mutual
/-- Embedding of `getSchemaByType` (source lines 22-98).  The promise unwrap
of lines 26-28 rebinds the scrutinised type once; dispatch order follows the
source: array, boolean flag, union, intersection, class-or-interface (with
the `Date`/`Object` special cases of lines 74-84), anonymous object, and the
`typeToString` fallback of lines 94-97. -/
def getSchemaByType (env : Env) (fuel : Nat) (ty0 : Ty) (extendFlag : Bool)
    (config : GetSchemaConfig) : Res SchemaObject :=
  match fuel with
  | 0 => .fuel
  | fuel + 1 =>
    let ty := match ty0 with
      | .promise a => a
      | t => t
    match ty with
    | .arr elem =>
      match getSchemaByType env fuel elem extendFlag config with
      | .ok items config =>
        .ok (.mk none (some "array") none none (some items) none none none none none none)
          config
      | .err msg => .err msg
      | .fuel => .fuel
    | .union true _ =>
      .ok (.mk none (some "boolean") none none none none none none none none none) config
    | .union false ms =>
      if ms.all isEnumLiteralTy then
        .ok (.mk none (some "string") none (some (ms.map enumValue)) none none none none
          none none none) config
      else
        match mapGetSchemaByType env fuel ms extendFlag config with
        | .ok l config =>
          .ok (.mk none (some "object") none none none (some l) none none none none none)
            config
        | .err msg => .err msg
        | .fuel => .fuel
    | .intersection ms =>
      match mapGetSchemaByType env fuel ms extendFlag config with
      | .ok l config =>
        .ok (.mk none (some "object") none none none none (some l) none none none none)
          config
      | .err msg => .err msg
      | .fuel => .fuel
    | .nominal id =>
      let nm := (declOf env id).name
      if nm = "Date" then
        .ok (.mk none (some "string") (some "date") none none none none none none none none)
          config
      else if nm = "Object" then
        .ok (.mk none (some "any") none none none none none none none none none) config
      else if extendFlag then
        extendClass env fuel (declOf env id).members (declOf env id).numberIndexType
          (declOf env id).stringIndexType config
      else
        addRefTypeSchema env fuel id config
    | .anon _ ms idxNum idxStr => extendClass env fuel ms idxNum idxStr config
    | t =>
      .ok (.mk none (some (typeToString env t)) none none none none none none none none none)
        config

termination_by structural fuel

/-- Embedding of `addRefTypeSchema` (source lines 100-141).  The identity
cache hit of lines 103-108, the name allocation of lines 110-119, the
pre-expansion cache insertion of lines 121-122, the inline expansion of line
124, and the hash-based deduplication scan of lines 127-137.  When the scan
finds a matching earlier entry, line 133 reads `cache.schemaName` where
`cache` is necessarily `undefined` (the early return at line 104 fired
otherwise), so the source throws a `TypeError` there, after the `splice` of
lines 129-132. -/
def addRefTypeSchema (env : Env) (fuel : Nat) (id : Nat) (config : GetSchemaConfig) :
    Res SchemaObject :=
  match fuel with
  | 0 => .fuel
  | fuel + 1 =>
    match config.typeCache.find? (fun c => c.type == id) with
    | some cache => .ok (refSchema cache.schemaName) config
    | none =>
      let typeName := (declOf env id).name
      let schemaName := allocateSchemaName config.schemaObjects typeName
      let pos := config.typeCache.length
      let config1 : GetSchemaConfig :=
        ⟨config.schemaObjects, config.typeCache ++ [⟨typeName, schemaName, id, none⟩]⟩
      match getSchemaByType env fuel (.nominal id) true config1 with
      | .ok schema config2 =>
        let hashCode := getHashCode schema
        if (config2.typeCache.find? (fun c =>
            (match c.hashCode with
             | some h => schemaBEq h hashCode
             | none => false) && c.typeName == typeName)).isSome then
          .err "TypeError: Cannot read property schemaName of undefined"
        else
          let config3 : GetSchemaConfig :=
            ⟨config2.schemaObjects,
              modifyAt config2.typeCache pos
                (fun c => ⟨c.typeName, c.schemaName, c.type, some hashCode⟩)⟩
          let config4 : GetSchemaConfig :=
            ⟨setKey config3.schemaObjects schemaName schema, config3.typeCache⟩
          .ok (refSchema schemaName) config4
      | .err msg => .err msg
      | .fuel => .fuel

termination_by structural fuel

/-- Embedding of `extendClass` (source lines 143-216).  Line 148 clears the
`extendClass` flag for every nested derivation; lines 156-159 attach
`additionalProperties` from the number- or string-index signature; the member
loop is `expandMembers` over the accessibility-filtered property list. -/
def extendClass (env : Env) (fuel : Nat) (ms : List Member) (idxNum idxStr : Option Ty)
    (config : GetSchemaConfig) : Res SchemaObject :=
  match fuel with
  | 0 => .fuel
  | fuel + 1 =>
    match idxNum.orElse (fun _ => idxStr) with
    | some indexType =>
      match getSchemaByType env fuel indexType false config with
      | .ok ap config =>
        match expandMembers env fuel (ms.filter memberKept) [] [] config with
        | .ok pr config =>
          .ok (.mk none (some "object") none none none none none (some pr.1) (some pr.2)
            (some ap) none) config
        | .err msg => .err msg
        | .fuel => .fuel
      | .err msg => .err msg
      | .fuel => .fuel
    | none =>
      match expandMembers env fuel (ms.filter memberKept) [] [] config with
      | .ok pr config =>
        .ok (.mk none (some "object") none none none none none (some pr.1) (some pr.2)
          none none) config
      | .err msg => .err msg
      | .fuel => .fuel

termination_by structural fuel

/-- The `forEach` body of source lines 170-214, threading the accumulated
`properties` map and `required` list: skip method-shaped declarations (lines
182-190); when `symbol.type || symbol.target.type` exists derive it (lines
192-194); else when a value declaration exists resolve `getTypeAtLocation`,
skipping `Function`-symbol and arrow-function types (lines 195-208); else
store `{type: 'any'}` (lines 209-213). -/
def expandMembers (env : Env) (fuel : Nat) (ms : List Member)
    (props : List (String × SchemaObject)) (reqd : List String)
    (config : GetSchemaConfig) : Res (List (String × SchemaObject) × List String) :=
  match fuel with
  | 0 => .fuel
  | fuel + 1 =>
    match ms with
    | [] => .ok (props, reqd) config
    | m :: rest =>
      if isMethodLike m then expandMembers env fuel rest props reqd config
      else
        match m.symbolType with
        | some targetType =>
          match getSchemaByType env fuel targetType false config with
          | .ok value config =>
            expandMembers env fuel rest
              (setKey props m.name (setPropFragment m value))
              (if hasQuestionToken m then reqd else reqd ++ [m.name]) config
          | .err msg => .err msg
          | .fuel => .fuel
        | none =>
          match m.valueDecl with
          | some _ =>
            let propType := m.locationType
            if symName env propType == some "Function" then
              expandMembers env fuel rest props reqd config
            else if symbolValueDeclIsArrow propType then
              expandMembers env fuel rest props reqd config
            else
              match getSchemaByType env fuel propType false config with
              | .ok value config =>
                expandMembers env fuel rest
                  (setKey props m.name (setPropFragment m value))
                  (if hasQuestionToken m then reqd else reqd ++ [m.name]) config
              | .err msg => .err msg
              | .fuel => .fuel
          | none =>
            expandMembers env fuel rest
              (setKey props m.name (setPropFragment m
                (.mk none (some "any") none none none none none none none none none)))
              (if hasQuestionToken m then reqd else reqd ++ [m.name]) config

termination_by structural fuel

/-- `types.map(t => getSchemaByType(t, config))` of source lines 62 and 70:
JavaScript `map` runs left to right with the shared mutable context. -/
def mapGetSchemaByType (env : Env) (fuel : Nat) (ms : List Ty) (extendFlag : Bool)
    (config : GetSchemaConfig) : Res (List SchemaObject) :=
  match fuel with
  | 0 => .fuel
  | fuel + 1 =>
    match ms with
    | [] => .ok [] config
    | t :: ts =>
      match getSchemaByType env fuel t extendFlag config with
      | .ok s config =>
        match mapGetSchemaByType env fuel ts extendFlag config with
        | .ok l config => .ok (s :: l) config
        | .err msg => .err msg
        | .fuel => .fuel
      | .err msg => .err msg
      | .fuel => .fuel
termination_by structural fuel
end

/-- Whether a type is a promise-like wrapper (its `symbol.escapedName` is
`'Promise'`). -/
def isPromiseTy : Ty → Bool
  | .promise _ => true
  | _ => false

/-!
Concrete environments used by the claim evaluations below.
-/

/-- Two structurally identical empty interfaces, both declared with name `A`,
with distinct object identities 0 and 1. -/
def envTwinA : Env := [⟨"A", [], none, none⟩, ⟨"A", [], none, none⟩]

/-- A directly self-referential nominal type:
`interface Node { value: number; next?: Node }`. -/
def envNode : Env := [⟨"Node",
  [.mk "value" none (some ⟨none, false, .propertyLike⟩) none (.other "number"),
   .mk "next" none (some ⟨none, true, .propertyLike⟩) none (.nominal 0)], none, none⟩]

/-- C1: resolving a second nominal type that shares its declared name and its
expanded structure with an earlier entry is specified to coalesce onto the
earlier registry entry, but the code instead throws: in the deduplication
branch of `addRefTypeSchema`, line 133 reads `cache.schemaName` where `cache`
is the identity-lookup result that is necessarily `undefined` in that branch,
so the run raises a `TypeError` instead of returning a reference to the
earlier name. -/
theorem C1_dedup_branch_throws :
    getSchemaByType envTwinA 20 (.intersection [.nominal 0, .nominal 1]) false ⟨[], []⟩ =
      .err "TypeError: Cannot read property schemaName of undefined" := rfl

/-- C2: the engine is specified to be total and never raise, but the
deduplication branch of `addRefTypeSchema` throws a `TypeError` (reading
`schemaName` of the `undefined` identity-lookup result `cache`), as this
evaluation of a union over two same-named structurally identical nominal
types shows. -/
theorem C2_engine_not_total :
    getSchemaByType envTwinA 20 (.union false [.nominal 0, .nominal 1]) false ⟨[], []⟩ =
      .err "TypeError: Cannot read property schemaName of undefined" := rfl

/-- C7: a boolean-kinded type (a union carrying the `ts.TypeFlags.Boolean`
flag) always yields `{type: 'boolean'}` and never an enum of the two boolean
literals: the boolean dispatch arm fires before the union arm regardless of
the union's member list. -/
theorem C7_boolean_never_enum (env : Env) (fuel : Nat) (ms : List Ty) (extendFlag : Bool)
    (config : GetSchemaConfig) (hfuel : 0 < fuel) :
    getSchemaByType env fuel (.union true ms) extendFlag config =
      .ok (.mk none (some "boolean") none none none none none none none none none) config := by
  match fuel, hfuel with
  | fuel + 1, _ => rfl

/-- Witness for `C7_boolean_never_enum` at a concrete input. -/
theorem C7_boolean_never_enum_witness :
    getSchemaByType [] 1 (.union true [.enumLiteral (.str "a"), .enumLiteral (.str "b")])
        false ⟨[], []⟩ =
      .ok (.mk none (some "boolean") none none none none none none none none none) ⟨[], []⟩ :=
  C7_boolean_never_enum [] 1 [.enumLiteral (.str "a"), .enumLiteral (.str "b")] false
    ⟨[], []⟩ (by decide)

/-- C5: the claim that `getSchemaByType` on a lazy wrapper equals
`getSchemaByType` on its argument fails for nested wrappers: the unwrap of
source lines 26-28 is performed once, not iterated, so `Promise<Promise<number>>`
falls through to the `typeToString` fallback (yielding `{type: 'Promise<number>'}`)
while `Promise<number>` yields `{type: 'number'}`. -/
theorem C5_nested_wrapper_cex :
    getSchemaByType [] 20 (.promise (.promise (.other "number"))) false ⟨[], []⟩ ≠
      getSchemaByType [] 20 (.promise (.other "number")) false ⟨[], []⟩ := by
  intro h
  have h1 : getSchemaByType [] 20 (.promise (.promise (.other "number"))) false ⟨[], []⟩ =
      .ok (.mk none (some "Promise<number>") none none none none none none none none none)
        ⟨[], []⟩ := rfl
  have h2 : getSchemaByType [] 20 (.promise (.other "number")) false ⟨[], []⟩ =
      .ok (.mk none (some "number") none none none none none none none none none)
        ⟨[], []⟩ := rfl
  rw [h1, h2] at h
  simp at h

/-- C5 (amended): for a lazy wrapper whose argument is not itself a
promise-named type, `getSchemaByType` on the wrapper equals `getSchemaByType`
on the argument, in the same context and with the same fuel: the wrapper is
substituted away and contributes no cache entry, registry entry, or schema
shape of its own.  Nested wrappers are only unwrapped one level per call. -/
theorem C5_wrapper_unwrapped (env : Env) (fuel : Nat) (t : Ty) (extendFlag : Bool)
    (config : GetSchemaConfig) (h : isPromiseTy t = false) :
    getSchemaByType env fuel (.promise t) extendFlag config =
      getSchemaByType env fuel t extendFlag config := by
  match fuel with
  | 0 => rfl
  | fuel + 1 => cases t <;> first | rfl | simp [isPromiseTy] at h

/-- Witness for `C5_wrapper_unwrapped` at a concrete input. -/
theorem C5_wrapper_unwrapped_witness :
    getSchemaByType [] 3 (.promise (.other "string")) false ⟨[], []⟩ =
      getSchemaByType [] 3 (.other "string") false ⟨[], []⟩ :=
  C5_wrapper_unwrapped [] 3 (.other "string") false ⟨[], []⟩ (by decide)

/-- The schema fragment of a successful run. -/
def resultSchema : Res SchemaObject → Option SchemaObject
  | .ok s _ => some s
  | _ => none

/-- The registry keys of a successful run, in insertion order. -/
def registryKeys : Res SchemaObject → List String
  | .ok _ config => config.schemaObjects.map Prod.fst
  | _ => []

/-- Characterisation of the sequential `types.map(...)` traversal: a
successful run returns one schema per member, and the i-th schema is the
result of a successful `getSchemaByType` run on the i-th member type. -/
theorem mapGetSchemaByType_ok (env : Env) :
    ∀ (fuel : Nat) (ms : List Ty) (extendFlag : Bool) (config : GetSchemaConfig)
      (l : List SchemaObject) (config' : GetSchemaConfig),
      mapGetSchemaByType env fuel ms extendFlag config = .ok l config' →
      l.length = ms.length ∧
      ∀ i (h : i < ms.length) (h' : i < l.length), ∃ f c1 c2,
        getSchemaByType env f (ms.get ⟨i, h⟩) extendFlag c1 = .ok (l.get ⟨i, h'⟩) c2 := by
  intro fuel
  induction fuel with
  | zero => intro ms flag config l config' h; simp [mapGetSchemaByType] at h
  | succ fuel ih =>
    intro ms flag config l config' h
    match ms with
    | [] =>
      simp [mapGetSchemaByType] at h
      obtain ⟨rfl, rfl⟩ := h
      exact ⟨rfl, fun i h _ => by simp at h⟩
    | t :: ts =>
      simp only [mapGetSchemaByType] at h
      split at h
      next s c1 hh =>
        split at h
        next l' c2 ht =>
          simp only [Res.ok.injEq] at h
          obtain ⟨rfl, rfl⟩ := h
          obtain ⟨hlen, hpt⟩ := ih ts flag c1 l' c2 ht
          refine ⟨by simp [hlen], ?_⟩
          intro i hi hi'
          match i with
          | 0 => exact ⟨fuel, config, c1, hh⟩
          | i + 1 =>
            simp only [List.length_cons] at hi hi'
            exact hpt i (by omega) (by omega)
        next => exact absurd h (by simp)
        next => exact absurd h (by simp)
      next => exact absurd h (by simp)
      next => exact absurd h (by simp)

/-- C6: a union type (without the boolean flag) all of whose members are
enum-literal kinds yields `{type: 'string', enum: [...]}` with the literal
values in declared member order; a union with at least one non-enum-literal
member yields a `oneOf` fragment whose i-th member is the schema derived by
`getSchemaByType` from the i-th union member. -/
theorem C6_union_enum_or_oneOf (env : Env) (fuel : Nat) (ms : List Ty) (extendFlag : Bool)
    (config : GetSchemaConfig) :
    (ms.all isEnumLiteralTy = true →
      getSchemaByType env (fuel + 1) (.union false ms) extendFlag config =
        .ok (.mk none (some "string") none (some (ms.map enumValue)) none none none none
          none none none) config) ∧
    (ms.all isEnumLiteralTy = false →
      ∀ s config', getSchemaByType env (fuel + 1) (.union false ms) extendFlag config =
          .ok s config' →
        ∃ l, s = .mk none (some "object") none none none (some l) none none none none none ∧
          l.length = ms.length ∧
          ∀ i (h : i < ms.length) (h' : i < l.length), ∃ f c1 c2,
            getSchemaByType env f (ms.get ⟨i, h⟩) extendFlag c1 = .ok (l.get ⟨i, h'⟩) c2) := by
  constructor
  · intro hall
    simp [getSchemaByType, hall]
  · intro hall s config' h
    simp only [getSchemaByType, hall, Bool.false_eq_true, if_false] at h
    split at h
    next l c1 ht =>
      simp only [Res.ok.injEq] at h
      obtain ⟨rfl, rfl⟩ := h
      obtain ⟨hlen, hpt⟩ := mapGetSchemaByType_ok env fuel ms extendFlag config l c1 ht
      exact ⟨l, rfl, hlen, hpt⟩
    next => exact absurd h (by simp)
    next => exact absurd h (by simp)

/-- Witness for `C6_union_enum_or_oneOf`: the all-enum-literal side at a
two-literal union, and the mixed side at a union containing a primitive. -/
theorem C6_union_enum_or_oneOf_witness :
    (getSchemaByType [] 1 (.union false [.enumLiteral (.str "Ok"), .enumLiteral (.str "Error")])
        false ⟨[], []⟩ =
      .ok (.mk none (some "string") none (some [.str "Ok", .str "Error"]) none none none none
        none none none) ⟨[], []⟩) ∧
    (∃ l, (.mk none (some "object") none none none
          (some [.mk none (some "number") none none none none none none none none none])
          none none none none none : SchemaObject) =
        .mk none (some "object") none none none (some l) none none none none none ∧
        l.length = [Ty.other "number"].length ∧
        ∀ i (h : i < [Ty.other "number"].length) (h' : i < l.length), ∃ f c1 c2,
          getSchemaByType [] f ([Ty.other "number"].get ⟨i, h⟩) false c1 =
            .ok (l.get ⟨i, h'⟩) c2) := by
  constructor
  · exact (C6_union_enum_or_oneOf [] 0
      [.enumLiteral (.str "Ok"), .enumLiteral (.str "Error")] false ⟨[], []⟩).1 (by decide)
  · exact (C6_union_enum_or_oneOf [] 2 [.other "number"] false ⟨[], []⟩).2 (by decide)
      (.mk none (some "object") none none none
        (some [.mk none (some "number") none none none none none none none none none])
        none none none none none) ⟨[], []⟩ rfl

/-- A `Function`-named interface at identity 0 and an interface `T` whose
public, non-method property `f` carries a symbol-attached type
(`symbol.type`) that is the `Function` interface itself. -/
def envFnProp : Env := [⟨"Function", [], none, none⟩,
  ⟨"T", [.mk "f" none (some ⟨none, false, .propertyLike⟩) (some (.nominal 0)) (.other "")],
    none, none⟩]

/-- C8 counterexample: a member whose resolved value type is function-shaped
is claimed to appear in neither `properties` nor `required`, but when the
member's type comes from `symbol.type || symbol.target.type` (source line
192) the `Function`/arrow-function checks of lines 198-206 are bypassed, so
the member `f` of `envFnProp` (whose symbol-attached type is the `Function`
interface) lands in both `properties` and `required`. -/
theorem C8_callable_member_included_cex :
    (resultSchema (getSchemaByType envFnProp 20 (.nominal 1) true ⟨[], []⟩)).map
        (fun s => ((s.properties.getD []).map Prod.fst, s.required.getD [])) =
      some (["f"], ["f"]) := rfl

/-- Membership in the map after a JS-style key assignment: every entry of
`setKey m k v` is the new binding or one of the old entries. -/
theorem mem_setKey (m : List (String × SchemaObject)) (k : String) (v : SchemaObject) :
    ∀ p, p ∈ setKey m k v → p = (k, v) ∨ p ∈ m := by
  induction m with
  | nil => intro p hp; simp [setKey] at hp; simp [hp]
  | cons q rest ih =>
    intro p hp
    simp only [setKey] at hp
    by_cases hq : q.1 == k
    · rw [if_pos hq] at hp
      rcases List.mem_cons.mp hp with h | h
      · exact Or.inl h
      · exact Or.inr (List.mem_cons_of_mem q h)
    · rw [if_neg hq] at hp
      rcases List.mem_cons.mp hp with h | h
      · exact Or.inr (h ▸ List.mem_cons_self q rest)
      · rcases ih p h with h' | h'
        · exact Or.inl h'
        · exact Or.inr (List.mem_cons_of_mem q h')

/-- The skip conditions of the member loop that the source actually enforces
for a surviving (accessibility-filtered) member: method-shaped declarations,
and checker-resolved (`getTypeAtLocation`) types that are `Function`-shaped
or arrow functions when no symbol-attached type exists. -/
def memberSkipped (env : Env) (m : Member) : Prop :=
  isMethodLike m = true ∨
    (m.symbolType.isNone = true ∧ m.valueDecl.isSome = true ∧
      (symName env m.locationType = some "Function" ∨
        symbolValueDeclIsArrow m.locationType = true))

instance (env : Env) (m : Member) : Decidable (memberSkipped env m) := by
  unfold memberSkipped; infer_instance

/-- A member all of whose occurrences are skipped never enters the
accumulated `properties` and `required` collections. -/
theorem expandMembers_skipped (env : Env) (nm : String) :
    ∀ (fuel : Nat) (ms : List Member) (props : List (String × SchemaObject))
      (reqd : List String) (config : GetSchemaConfig)
      (pr : List (String × SchemaObject) × List String) (config' : GetSchemaConfig),
      (∀ m ∈ ms, m.name = nm → memberSkipped env m) →
      (∀ p ∈ props, p.1 ≠ nm) → nm ∉ reqd →
      expandMembers env fuel ms props reqd config = .ok pr config' →
      (∀ p ∈ pr.1, p.1 ≠ nm) ∧ nm ∉ pr.2 := by
  intro fuel
  induction fuel with
  | zero => intro ms props reqd config pr config' _ _ _ h; simp [expandMembers] at h
  | succ fuel ih =>
    intro ms props reqd config pr config' hskip hprops hreqd h
    match ms with
    | [] =>
      simp only [expandMembers, Res.ok.injEq] at h
      obtain ⟨rfl, rfl⟩ := h
      exact ⟨hprops, hreqd⟩
    | m :: rest =>
      have hskiprest : ∀ m' ∈ rest, m'.name = nm → memberSkipped env m' :=
        fun m' hm' => hskip m' (List.mem_cons_of_mem m hm')
      have hname : m.name = nm → memberSkipped env m := hskip m (List.mem_cons_self m rest)
      have hsetKey : ∀ value, m.name ≠ nm →
          (∀ p ∈ setKey props m.name value, p.1 ≠ nm) := by
        intro value hne p hp
        rcases mem_setKey props m.name value p hp with h' | h'
        · rw [h']; exact hne
        · exact hprops p h'
      have hreqd' : m.name ≠ nm →
          nm ∉ (if hasQuestionToken m then reqd else reqd ++ [m.name]) := by
        intro hne
        by_cases hq : hasQuestionToken m
        · simpa [hq] using hreqd
        · simp only [hq, if_false]
          intro hmem
          rcases List.mem_append.mp hmem with hc | hc
          · exact hreqd hc
          · simp only [List.mem_singleton] at hc
            exact hne hc.symm
      simp only [expandMembers] at h
      by_cases hml : isMethodLike m
      · rw [if_pos hml] at h
        exact ih rest props reqd config pr config' hskiprest hprops hreqd h
      · rw [if_neg hml] at h
        split at h
        next targetType hst =>
          have hne : m.name ≠ nm := by
            intro hc
            rcases hname hc with hsk | ⟨hnone, _, _⟩
            · exact hml hsk
            · rw [hst] at hnone; simp at hnone
          split at h
          next value c1 _ =>
            exact ih rest _ _ c1 pr config' hskiprest (hsetKey _ hne) (hreqd' hne) h
          next => exact absurd h (by simp)
          next => exact absurd h (by simp)
        next hst =>
          split at h
          next vd hvd =>
            split at h
            next hfn =>
              exact ih rest props reqd config pr config' hskiprest hprops hreqd h
            next hfn =>
              split at h
              next harrow =>
                exact ih rest props reqd config pr config' hskiprest hprops hreqd h
              next harrow =>
                have hne : m.name ≠ nm := by
                  intro hc
                  rcases hname hc with hsk | ⟨_, _, hfa | hfa⟩
                  · exact hml hsk
                  · exact hfn (by simp [hfa])
                  · exact harrow hfa
                split at h
                next value c1 _ =>
                  exact ih rest _ _ c1 pr config' hskiprest (hsetKey _ hne)
                    (hreqd' hne) h
                next => exact absurd h (by simp)
                next => exact absurd h (by simp)
          next hvd =>
            have hne : m.name ≠ nm := by
              intro hc
              rcases hname hc with hsk | ⟨_, hsome, _⟩
              · exact hml hsk
              · rw [hvd] at hsome; simp at hsome
            exact ih rest _ _ config pr config' hskiprest (hsetKey _ hne) (hreqd' hne) h

/-- C8 (amended): in any object expansion by `extendClass`, a member name
all of whose member occurrences are either inaccessible (private/protected
modifier), method-shaped, or without a symbol-attached type and with a
checker-resolved value type that is `Function`-shaped or an arrow function,
appears in neither `properties` nor `required`.  (The source does not skip a
member whose function-shaped type is symbol-attached, see the
counterexample.) -/
theorem C8_member_filtering_amended (env : Env) (fuel : Nat) (ms : List Member)
    (idxNum idxStr : Option Ty) (config : GetSchemaConfig) (nm : String)
    (hall : ∀ m ∈ ms, m.name = nm → (memberKept m = false ∨ memberSkipped env m)) :
    ∀ s config', extendClass env fuel ms idxNum idxStr config = .ok s config' →
      (∀ props, s.properties = some props → ∀ p ∈ props, p.1 ≠ nm) ∧
      (∀ reqd, s.required = some reqd → nm ∉ reqd) := by
  intro s config' h
  have hfilter : ∀ m ∈ ms.filter memberKept, m.name = nm → memberSkipped env m := by
    intro m hm hnm
    obtain ⟨hmem, hkept⟩ := List.mem_filter.mp hm
    rcases hall m hmem hnm with hk | hsk
    · rw [hk] at hkept; exact absurd hkept (by simp)
    · exact hsk
  match fuel with
  | 0 => simp [extendClass] at h
  | fuel + 1 =>
    simp only [extendClass] at h
    split at h
    next indexType _ =>
      split at h
      next ap c1 _ =>
        split at h
        next pr c2 hexp =>
          simp only [Res.ok.injEq] at h
          obtain ⟨rfl, rfl⟩ := h
          obtain ⟨hp, hr⟩ := expandMembers_skipped env nm fuel (ms.filter memberKept)
            [] [] c1 pr c2 hfilter (by simp) (by simp) hexp
          constructor
          · intro props hprops
            simp only [SchemaObject.properties, Option.some.injEq] at hprops
            exact hprops ▸ hp
          · intro reqd hreqd
            simp only [SchemaObject.required, Option.some.injEq] at hreqd
            exact hreqd ▸ hr
        next => exact absurd h (by simp)
        next => exact absurd h (by simp)
      next => exact absurd h (by simp)
      next => exact absurd h (by simp)
    next =>
      split at h
      next pr c2 hexp =>
        simp only [Res.ok.injEq] at h
        obtain ⟨rfl, rfl⟩ := h
        obtain ⟨hp, hr⟩ := expandMembers_skipped env nm fuel (ms.filter memberKept)
          [] [] config pr c2 hfilter (by simp) (by simp) hexp
        constructor
        · intro props hprops
          simp only [SchemaObject.properties, Option.some.injEq] at hprops
          exact hprops ▸ hp
        · intro reqd hreqd
          simp only [SchemaObject.required, Option.some.injEq] at hreqd
          exact hreqd ▸ hr
      next => exact absurd h (by simp)
      next => exact absurd h (by simp)

/-- Witness for `C8_member_filtering_amended`: a private member, a method
member, and a public data member expanded together; the private and method
members are absent from the result. -/
theorem C8_member_filtering_amended_witness :
    (∀ props,
      (SchemaObject.mk none (some "object") none none none none none
        (some [("x", .mk none (some "number") none none none none none none none none none)])
        (some ["x"]) none none).properties = some props → ∀ p ∈ props, p.1 ≠ "secret") ∧
    (∀ reqd,
      (SchemaObject.mk none (some "object") none none none none none
        (some [("x", .mk none (some "number") none none none none none none none none none)])
        (some ["x"]) none none).required = some reqd → "secret" ∉ reqd) := by
  refine C8_member_filtering_amended [] 9
    [.mk "secret" none (some ⟨some [.privateKeyword], false, .propertyLike⟩) none (.other "string"),
     .mk "x" none (some ⟨none, false, .propertyLike⟩) none (.other "number")]
    none none ⟨[], []⟩ "secret" ?_ _ ⟨[], []⟩ ?_
  · intro m hm hnm
    fin_cases hm
    · exact Or.inl rfl
    · exact absurd hnm (by decide)
  · rfl

/-- `Nat.toDigitsCore` produces the decimal digits (most significant first,
rendered with `Nat.digitChar`) followed by the accumulator, given enough fuel. -/
theorem toDigitsCore_eq_digits :
    ∀ (f n : Nat) (acc : List Char), 0 < n → n < f →
      Nat.toDigitsCore 10 f n acc =
        ((Nat.digits 10 n).map Nat.digitChar).reverse ++ acc := by
  intro f
  induction f with
  | zero => intro n acc h0 hf; exact absurd hf (by omega)
  | succ f ih =>
    intro n acc h0 hf
    simp only [Nat.toDigitsCore]
    by_cases hdiv : n / 10 = 0
    · rw [if_pos hdiv]
      rw [Nat.digits_def' (by norm_num : (1 : ℕ) < 10) h0, hdiv]
      simp
    · rw [if_neg hdiv]
      have h1 : 0 < n / 10 := Nat.pos_of_ne_zero hdiv
      have h2 : n / 10 < f := by
        have := Nat.div_lt_self h0 (by norm_num : (1 : ℕ) < 10)
        omega
      rw [ih (n / 10) _ h1 h2]
      rw [Nat.digits_def' (by norm_num : (1 : ℕ) < 10) h0]
      simp

/-- `Nat.repr` of a positive number renders its decimal digit list. -/
theorem natRepr_eq_digits (n : Nat) (h0 : 0 < n) :
    Nat.repr n = (((Nat.digits 10 n).map Nat.digitChar).reverse).asString := by
  rw [Nat.repr, Nat.toDigits, toDigitsCore_eq_digits (n + 1) n [] h0 (by omega)]
  simp

/-- `Nat.digitChar` is injective below base 10. -/
theorem digitChar_inj : ∀ a, a < 10 → ∀ b, b < 10 →
    Nat.digitChar a = Nat.digitChar b → a = b := by decide

/-- Mapping `Nat.digitChar` over digit lists (entries below 10) is injective. -/
theorem map_digitChar_inj :
    ∀ (l1 l2 : List Nat), (∀ x ∈ l1, x < 10) → (∀ x ∈ l2, x < 10) →
      l1.map Nat.digitChar = l2.map Nat.digitChar → l1 = l2 := by
  intro l1
  induction l1 with
  | nil => intro l2 _ _ h; cases l2 with
    | nil => rfl
    | cons b bs => simp at h
  | cons a l ih =>
    intro l2 h1 h2 h
    cases l2 with
    | nil => simp at h
    | cons b bs =>
      simp only [List.map_cons, List.cons.injEq] at h
      obtain ⟨hab, hrest⟩ := h
      have hab' := digitChar_inj a (h1 a (by simp)) b (h2 b (by simp)) hab
      rw [hab', ih bs (fun x hx => h1 x (by simp [hx])) (fun x hx => h2 x (by simp [hx]))
        hrest]

/-- The decimal rendering `Nat.repr` is injective. -/
theorem natRepr_injective : ∀ m n : Nat, Nat.repr m = Nat.repr n → m = n := by
  have hpos0 : ∀ n : Nat, 0 < n → Nat.repr n = Nat.repr 0 → False := by
    intro n h0 h
    rw [natRepr_eq_digits n h0] at h
    have hdata := congrArg String.data h
    simp only [List.asString] at hdata
    have hrev : (Nat.digits 10 n).map Nat.digitChar = ['0'] := by
      have : ((Nat.digits 10 n).map Nat.digitChar).reverse = ['0'] := by
        simpa [Nat.repr, Nat.toDigits, Nat.toDigitsCore, List.asString] using hdata
      have h' := congrArg List.reverse this
      simpa using h'
    have hd : Nat.digits 10 n = [0] := by
      have := map_digitChar_inj (Nat.digits 10 n) [0]
        (fun x hx => Nat.digits_lt_base (by norm_num) hx) (by simp) (by simpa using hrev)
      exact this
    have hof := Nat.ofDigits_digits 10 n
    rw [hd] at hof
    simp [Nat.ofDigits] at hof
    omega
  intro m n h
  match m, n with
  | 0, 0 => rfl
  | 0, n + 1 => exact absurd h.symm (fun hc => hpos0 (n + 1) (by omega) hc)
  | m + 1, 0 => exact absurd h (fun hc => hpos0 (m + 1) (by omega) hc)
  | m + 1, n + 1 =>
    rw [natRepr_eq_digits (m + 1) (by omega), natRepr_eq_digits (n + 1) (by omega)] at h
    have hdata := congrArg String.data h
    simp only [List.asString] at hdata
    have hrev := congrArg List.reverse hdata
    simp only [List.reverse_reverse] at hrev
    have hdig := map_digitChar_inj (Nat.digits 10 (m + 1)) (Nat.digits 10 (n + 1))
      (fun x hx => Nat.digits_lt_base (by norm_num) hx)
      (fun x hx => Nat.digits_lt_base (by norm_num) hx) hrev
    exact Nat.digits_inj_iff.mp hdig

/-- The probed candidate names `base_i` are injective in `i`. -/
theorem candName_inj (base : String) : ∀ i j : Nat,
    base ++ "_" ++ Nat.repr i = base ++ "_" ++ Nat.repr j → i = j := by
  intro i j h
  apply natRepr_injective
  have hdata := congrArg String.data h
  simp only [String.data_append, List.append_assoc] at hdata
  have := List.append_cancel_left hdata
  have := List.append_cancel_left this
  exact String.ext this

/-- A key with a `some` lookup is one of the map's keys. -/
theorem lookupKey_isSome_mem (m : List (String × SchemaObject)) (k : String) :
    (lookupKey m k).isSome = true → k ∈ m.map Prod.fst := by
  intro h
  unfold lookupKey at h
  cases hf : m.find? (fun p => p.1 == k) with
  | none => rw [hf] at h; simp at h
  | some p =>
    have hp := List.find?_some hf
    have hmem := List.mem_of_find?_eq_some hf
    simp only [beq_iff_eq] at hp
    rw [← hp]
    exact List.mem_map_of_mem Prod.fst hmem

/-- Pigeonhole for the probing loop: among the `length + 1` candidates
`base_1 … base_(length+1)` at least one is not a key of the map. -/
theorem exists_free_index (m : List (String × SchemaObject)) (base : String) :
    ∃ j, 1 ≤ j ∧ j ≤ m.length + 1 ∧ lookupKey m (base ++ "_" ++ Nat.repr j) = none := by
  by_contra hcon
  push_neg at hcon
  have hsub : ((List.range (m.length + 1)).map (fun k => base ++ "_" ++ Nat.repr (k + 1)))
      ⊆ m.map Prod.fst := by
    intro x hx
    simp only [List.mem_map, List.mem_range] at hx
    obtain ⟨k, hk, rfl⟩ := hx
    apply lookupKey_isSome_mem
    have hne := hcon (k + 1) (by omega) (by omega)
    cases hl : lookupKey m (base ++ "_" ++ Nat.repr (k + 1)) with
    | none => exact absurd hl hne
    | some v => simp
  have hinj : Function.Injective (fun k : Nat => base ++ "_" ++ Nat.repr (k + 1)) := by
    intro a b hab
    have := candName_inj base (a + 1) (b + 1) hab
    omega
  have hnd : ((List.range (m.length + 1)).map
      (fun k => base ++ "_" ++ Nat.repr (k + 1))).Nodup :=
    (List.nodup_range _).map hinj
  have hle := (List.subperm_of_subset hnd hsub).length_le
  simp only [List.length_map, List.length_range] at hle
  omega

/-- The probing loop of source lines 114-117 returns the first free suffixed
name at or after the starting index, provided a free candidate exists within
its fuel budget. -/
theorem probeName_spec (m : List (String × SchemaObject)) (base : String) :
    ∀ (f i : Nat),
      (∃ j, i ≤ j ∧ j ≤ i + f ∧ lookupKey m (base ++ "_" ++ Nat.repr j) = none) →
      ∃ k, i ≤ k ∧ probeName m base i f = base ++ "_" ++ Nat.repr k ∧
        lookupKey m (base ++ "_" ++ Nat.repr k) = none ∧
        ∀ j, i ≤ j → j < k → lookupKey m (base ++ "_" ++ Nat.repr j) ≠ none := by
  intro f
  induction f with
  | zero =>
    rintro i ⟨j, hij, hji, hfree⟩
    have hj : j = i := by omega
    subst hj
    exact ⟨j, le_refl j, rfl, hfree, fun j' h1 h2 => absurd (lt_of_le_of_lt h1 h2)
      (lt_irrefl _)⟩
  | succ f ih =>
    rintro i ⟨j, hij, hji, hfree⟩
    by_cases hi : (lookupKey m (base ++ "_" ++ Nat.repr i)).isSome
    · have hne : j ≠ i := by
        intro hc
        subst hc
        rw [hfree] at hi
        simp at hi
      obtain ⟨k, hk1, hk2, hk3, hk4⟩ := ih (i + 1) ⟨j, by omega, by omega, hfree⟩
      refine ⟨k, by omega, ?_, hk3, ?_⟩
      · simp only [probeName, hi, if_true]
        exact hk2
      · intro j' h1 h2
        rcases Nat.eq_or_lt_of_le h1 with hj' | hlt
        · intro hc
          rw [← hj'] at hc
          rw [hc] at hi
          simp at hi
        · exact hk4 j' hlt h2
    · have hfree' : lookupKey m (base ++ "_" ++ Nat.repr i) = none := by
        cases hl : lookupKey m (base ++ "_" ++ Nat.repr i) with
        | none => rfl
        | some v => rw [hl] at hi; simp at hi
      refine ⟨i, le_refl i, ?_, hfree', fun j' h1 h2 => absurd (lt_of_le_of_lt h1 h2)
        (lt_irrefl _)⟩
      simp only [probeName, hi, if_false, Bool.false_eq_true]

/-- Two nominal types sharing the declared name `A` but with different member
structure (the second has a member `x : number`). -/
def envTwinAdiff : Env := [⟨"A", [], none, none⟩,
  ⟨"A", [.mk "x" none (some ⟨none, false, .propertyLike⟩) none (.other "number")],
    none, none⟩]

/-- C9: when the declared name is already a registry key, the allocated
schema name is the declared name suffixed with `_i` for the smallest `i ≥ 1`
whose suffixed name is not yet a key; two same-named nominal types with
differing member structure each get their own registry entry under `A` and
`A_1`, both referenced at their use sites. -/
theorem C9_collision_suffix_allocation :
    (∀ (m : List (String × SchemaObject)) (typeName : String),
      (lookupKey m typeName).isSome = true →
      ∃ k, 1 ≤ k ∧ allocateSchemaName m typeName = typeName ++ "_" ++ Nat.repr k ∧
        lookupKey m (typeName ++ "_" ++ Nat.repr k) = none ∧
        ∀ j, 1 ≤ j → j < k → lookupKey m (typeName ++ "_" ++ Nat.repr j) ≠ none) ∧
    (registryKeys (getSchemaByType envTwinAdiff 20 (.intersection [.nominal 0, .nominal 1])
        false ⟨[], []⟩) = ["A", "A_1"] ∧
      (resultSchema (getSchemaByType envTwinAdiff 20
          (.intersection [.nominal 0, .nominal 1]) false ⟨[], []⟩)).map SchemaObject.allOf =
        some (some [refSchema "A", refSchema "A_1"])) := by
  refine ⟨?_, rfl, rfl⟩
  intro m typeName hsome
  obtain ⟨j, hj1, hj2, hjfree⟩ := exists_free_index m typeName
  obtain ⟨k, hk1, hk2, hk3, hk4⟩ := probeName_spec m typeName (m.length + 1) 1
    ⟨j, hj1, by omega, hjfree⟩
  refine ⟨k, hk1, ?_, hk3, hk4⟩
  rw [allocateSchemaName, if_pos hsome]
  exact hk2

/-- Witness for `C9_collision_suffix_allocation` at a concrete registry
already containing the declared name. -/
theorem C9_collision_suffix_allocation_witness :
    ∃ k, 1 ≤ k ∧
      allocateSchemaName [("A", SchemaObject.empty)] "A" = "A" ++ "_" ++ Nat.repr k ∧
      lookupKey [("A", SchemaObject.empty)] ("A" ++ "_" ++ Nat.repr k) = none ∧
      ∀ j, 1 ≤ j → j < k →
        lookupKey [("A", SchemaObject.empty)] ("A" ++ "_" ++ Nat.repr j) ≠ none :=
  C9_collision_suffix_allocation.1 [("A", SchemaObject.empty)] "A" rfl

/-- Unfolding lookup over a cons cell. -/
theorem lookupKey_cons (p : String × SchemaObject) (rest : List (String × SchemaObject))
    (k : String) :
    lookupKey (p :: rest) k = if p.1 = k then some p.2 else lookupKey rest k := by
  by_cases h : p.1 = k
  · have hb : (p.1 == k) = true := beq_iff_eq.mpr h
    simp [lookupKey, List.find?, hb, h]
  · have hb : (p.1 == k) = false := by simp [h]
    simp [lookupKey, List.find?, hb, h]

/-- Lookup after a JS-style key assignment: the assigned key reads the new
value, every other key is unchanged. -/
theorem lookupKey_setKey (k : String) (v : SchemaObject) :
    ∀ (m : List (String × SchemaObject)) (k' : String),
      lookupKey (setKey m k v) k' = if k' = k then some v else lookupKey m k' := by
  intro m
  induction m with
  | nil =>
    intro k'
    simp only [setKey, lookupKey_cons]
    by_cases h : k' = k
    · simp [h]
    · have h2 : ¬k = k' := fun hc => h hc.symm
      simp [h, h2, lookupKey, List.find?]
  | cons p rest ih =>
    intro k'
    simp only [setKey]
    by_cases hp : p.1 = k
    · have hb : (p.1 == k) = true := beq_iff_eq.mpr hp
      rw [if_pos hb]
      rw [lookupKey_cons, lookupKey_cons]
      by_cases h : k' = k
      · simp [h]
      · have h2 : ¬k = k' := fun hc => h hc.symm
        have h3 : ¬p.1 = k' := by rw [hp]; exact h2
        simp [h, h2, h3]
    · have hb : (p.1 == k) = false := by simp [hp]
      rw [if_neg (by simp [hb])]
      rw [lookupKey_cons, lookupKey_cons, ih k']
      by_cases hq : p.1 = k'
      · have h4 : ¬k' = k := fun hc => hp (hq.trans hc)
        simp [hq, h4]
      · by_cases h : k' = k <;> simp [hq, h, hp]

/-- Updating an element past a prefix leaves the prefix untouched. -/
theorem modifyAt_append (f : TypeCache → TypeCache) :
    ∀ (l1 l2 : List TypeCache), modifyAt (l1 ++ l2) l1.length f = l1 ++ modifyAt l2 0 f := by
  intro l1
  induction l1 with
  | nil => intro l2; rfl
  | cons x xs ih =>
    intro l2
    simp only [List.cons_append, List.length_cons, modifyAt]
    exact congrArg (x :: .) (ih l2)

/-- The promise unwrap of lines 26-28 consumes no fuel: on a wrapper whose
argument is not itself promise-named, the call coincides with the call on
the argument. -/
theorem getSchemaByType_promise (env : Env) (fuel : Nat) (t : Ty) (flag : Bool)
    (config : GetSchemaConfig) (h : isPromiseTy t = false) :
    getSchemaByType env fuel (.promise t) flag config =
      getSchemaByType env fuel t flag config := by
  match fuel with
  | 0 => rfl
  | fuel + 1 => cases t <;> first | rfl | simp [isPromiseTy] at h

/-- Invariant relating the shared context before and after a successful
call: the type cache grows by appended entries that all record the declared
name of the nominal identity they cache, and every registry key is an old
key or the schema name of some cache entry. -/
def ctxInv (env : Env) (config config' : GetSchemaConfig) : Prop :=
  (∃ Δ, config'.typeCache = config.typeCache ++ Δ ∧
    ∀ c ∈ Δ, c.typeName = (declOf env c.type).name) ∧
  (∀ k, lookupKey config'.schemaObjects k ≠ none →
    lookupKey config.schemaObjects k ≠ none ∨
      ∃ c ∈ config'.typeCache, c.schemaName = k)

theorem ctxInv_refl (env : Env) (config : GetSchemaConfig) : ctxInv env config config :=
  ⟨⟨[], by simp, by simp⟩, fun _ h => Or.inl h⟩

theorem ctxInv_trans (env : Env) {a b c : GetSchemaConfig} :
    ctxInv env a b → ctxInv env b c → ctxInv env a c := by
  rintro ⟨⟨d1, hd1, hp1⟩, hk1⟩ ⟨⟨d2, hd2, hp2⟩, hk2⟩
  refine ⟨⟨d1 ++ d2, by rw [hd2, hd1, List.append_assoc], ?_⟩, ?_⟩
  · intro x hx
    rcases List.mem_append.mp hx with hx | hx
    · exact hp1 x hx
    · exact hp2 x hx
  · intro k hk
    rcases hk2 k hk with hk' | hk'
    · rcases hk1 k hk' with hk'' | ⟨e, he, hes⟩
      · exact Or.inl hk''
      · exact Or.inr ⟨e, by rw [hd2]; exact List.mem_append_left _ he, hes⟩
    · exact Or.inr hk'

/-- Context invariant for every successful run of the five mutually
recursive functions: the cache only grows by nominal registrations (entries
recording the declared name of their identity) and every registry key
traces to the schema name of a surviving cache entry or was present before. -/
theorem ctxInv_run (env : Env) : ∀ fuel : Nat,
    (∀ ty0 flag config a config',
      getSchemaByType env fuel ty0 flag config = .ok a config' → ctxInv env config config') ∧
    (∀ id config a config',
      addRefTypeSchema env fuel id config = .ok a config' → ctxInv env config config') ∧
    (∀ ms idxNum idxStr config a config',
      extendClass env fuel ms idxNum idxStr config = .ok a config' →
        ctxInv env config config') ∧
    (∀ ms props reqd config a config',
      expandMembers env fuel ms props reqd config = .ok a config' →
        ctxInv env config config') ∧
    (∀ ms flag config a config',
      mapGetSchemaByType env fuel ms flag config = .ok a config' →
        ctxInv env config config') := by
  intro fuel
  induction fuel with
  | zero =>
    exact ⟨fun ty0 flag config a config' h => by simp [getSchemaByType] at h,
      fun id config a config' h => by simp [addRefTypeSchema] at h,
      fun ms i1 i2 config a config' h => by simp [extendClass] at h,
      fun ms p r config a config' h => by simp [expandMembers] at h,
      fun ms flag config a config' h => by simp [mapGetSchemaByType] at h⟩
  | succ fuel ih =>
    obtain ⟨ihG, ihA, ihE, ihX, ihL⟩ := ih
    have hdisp : ∀ (t : Ty) (flag : Bool) (config : GetSchemaConfig) a config',
        isPromiseTy t = false →
        getSchemaByType env (fuel + 1) t flag config = .ok a config' →
        ctxInv env config config' := by
      intro t flag config a config' hnp h
      cases t with
      | promise arg => simp [isPromiseTy] at hnp
      | arr elem =>
        simp only [getSchemaByType] at h
        split at h
        next items c1 hrec =>
          simp only [Res.ok.injEq] at h
          obtain ⟨rfl, rfl⟩ := h
          exact ihG elem flag config items c1 hrec
        next => exact absurd h (by simp)
        next => exact absurd h (by simp)
      | union bf ms =>
        cases bf with
        | true =>
          simp only [getSchemaByType, Res.ok.injEq] at h
          obtain ⟨rfl, rfl⟩ := h
          exact ctxInv_refl env _
        | false =>
          simp only [getSchemaByType] at h
          split at h
          next hall =>
            simp only [Res.ok.injEq] at h
            obtain ⟨rfl, rfl⟩ := h
            exact ctxInv_refl env _
          next hall =>
            split at h
            next l c1 hmap =>
              simp only [Res.ok.injEq] at h
              obtain ⟨rfl, rfl⟩ := h
              exact ihL ms flag config l c1 hmap
            next => exact absurd h (by simp)
            next => exact absurd h (by simp)
      | intersection ms =>
        simp only [getSchemaByType] at h
        split at h
        next l c1 hmap =>
          simp only [Res.ok.injEq] at h
          obtain ⟨rfl, rfl⟩ := h
          exact ihL ms flag config l c1 hmap
        next => exact absurd h (by simp)
        next => exact absurd h (by simp)
      | nominal id =>
        simp only [getSchemaByType] at h
        split at h
        next hd =>
          simp only [Res.ok.injEq] at h
          obtain ⟨rfl, rfl⟩ := h
          exact ctxInv_refl env _
        next hd =>
          split at h
          next ho =>
            simp only [Res.ok.injEq] at h
            obtain ⟨rfl, rfl⟩ := h
            exact ctxInv_refl env _
          next ho =>
            split at h
            next hf => exact ihE _ _ _ config a config' h
            next hf => exact ihA id config a config' h
      | anon arrow ms i1 i2 =>
        simp only [getSchemaByType] at h
        exact ihE ms i1 i2 config a config' h
      | enumLiteral v =>
        simp only [getSchemaByType, Res.ok.injEq] at h
        obtain ⟨rfl, rfl⟩ := h
        exact ctxInv_refl env _
      | other s =>
        simp only [getSchemaByType, Res.ok.injEq] at h
        obtain ⟨rfl, rfl⟩ := h
        exact ctxInv_refl env _
    refine ⟨?_, ?_, ?_, ?_, ?_⟩
    · intro ty0 flag config a config' h
      cases ty0
      case promise arg =>
        cases arg
        case promise b =>
          simp only [getSchemaByType, Res.ok.injEq] at h
          obtain ⟨rfl, rfl⟩ := h
          exact ctxInv_refl env _
        all_goals rw [getSchemaByType_promise env (fuel + 1) _ flag config (by rfl)] at h
        all_goals exact hdisp _ flag config a config' (by rfl) h
      all_goals exact hdisp _ flag config a config' (by rfl) h
    · intro id config a config' h
      simp only [addRefTypeSchema] at h
      split at h
      next cache hfind =>
        simp only [Res.ok.injEq] at h
        obtain ⟨rfl, rfl⟩ := h
        exact ctxInv_refl env _
      next hfind =>
        split at h
        next schema config2 hrec =>
          split at h
          next hdup => exact absurd h (by simp)
          next hdup =>
            simp only [Res.ok.injEq] at h
            obtain ⟨rfl, rfl⟩ := h
            obtain ⟨⟨d, hd, hprov⟩, hkeys⟩ := ihG (.nominal id) true _ schema config2 hrec
            simp only at hd
            rw [List.append_assoc] at hd
            simp only [List.singleton_append] at hd
            constructor
            · refine ⟨⟨(declOf env id).name,
                allocateSchemaName config.schemaObjects (declOf env id).name, id,
                some (getHashCode schema)⟩ :: d, ?_, ?_⟩
              · simp only
                rw [hd, modifyAt_append]
                rfl
              · intro c hc
                rcases List.mem_cons.mp hc with hc | hc
                · rw [hc]
                · exact hprov c hc
            · intro k hk
              simp only at hk
              rw [lookupKey_setKey] at hk
              by_cases hkn : k = allocateSchemaName config.schemaObjects (declOf env id).name
              · refine Or.inr ⟨⟨(declOf env id).name,
                  allocateSchemaName config.schemaObjects (declOf env id).name, id,
                  some (getHashCode schema)⟩, ?_, hkn.symm⟩
                simp only
                rw [hd, modifyAt_append]
                exact List.mem_append_right _ (List.mem_cons_self _ _)
              · rw [if_neg hkn] at hk
                rcases hkeys k hk with hk' | ⟨c, hc, hcs⟩
                · exact Or.inl hk'
                · rw [hd] at hc
                  rcases List.mem_append.mp hc with hc' | hc'
                  · refine Or.inr ⟨c, ?_, hcs⟩
                    simp only
                    rw [hd, modifyAt_append]
                    exact List.mem_append_left _ hc'
                  · rcases List.mem_cons.mp hc' with hc'' | hc'' 
                    · refine Or.inr ⟨⟨(declOf env id).name,
                        allocateSchemaName config.schemaObjects (declOf env id).name, id,
                        some (getHashCode schema)⟩, ?_, ?_⟩
                      · simp only
                        rw [hd, modifyAt_append]
                        exact List.mem_append_right _ (List.mem_cons_self _ _)
                      · rw [hc''] at hcs
                        exact hcs
                    · refine Or.inr ⟨c, ?_, hcs⟩
                      simp only
                      rw [hd, modifyAt_append]
                      exact List.mem_append_right _ (List.mem_cons_of_mem _ hc'')
        next => exact absurd h (by simp)
        next => exact absurd h (by simp)
    · intro ms idxNum idxStr config a config' h
      simp only [extendClass] at h
      split at h
      next indexType heq =>
        split at h
        next ap c1 hidx =>
          split at h
          next pr c2 hexp =>
            simp only [Res.ok.injEq] at h
            obtain ⟨rfl, rfl⟩ := h
            exact ctxInv_trans env (ihG indexType false config ap c1 hidx)
              (ihX (ms.filter memberKept) [] [] c1 pr c2 hexp)
          next => exact absurd h (by simp)
          next => exact absurd h (by simp)
        next => exact absurd h (by simp)
        next => exact absurd h (by simp)
      next heq =>
        split at h
        next pr c2 hexp =>
          simp only [Res.ok.injEq] at h
          obtain ⟨rfl, rfl⟩ := h
          exact ihX (ms.filter memberKept) [] [] config pr c2 hexp
        next => exact absurd h (by simp)
        next => exact absurd h (by simp)
    · intro ms props reqd config a config' h
      match ms with
      | [] =>
        simp only [expandMembers, Res.ok.injEq] at h
        obtain ⟨rfl, rfl⟩ := h
        exact ctxInv_refl env _
      | m :: rest =>
        simp only [expandMembers] at h
        by_cases hml : isMethodLike m
        · rw [if_pos hml] at h
          exact ihX rest props reqd config a config' h
        · rw [if_neg hml] at h
          split at h
          next targetType hst =>
            split at h
            next value c1 hval =>
              exact ctxInv_trans env (ihG targetType false config value c1 hval)
                (ihX rest _ _ c1 a config' h)
            next => exact absurd h (by simp)
            next => exact absurd h (by simp)
          next hst =>
            split at h
            next vd hvd =>
              split at h
              next hfn => exact ihX rest props reqd config a config' h
              next hfn =>
                split at h
                next harrow => exact ihX rest props reqd config a config' h
                next harrow =>
                  split at h
                  next value c1 hval =>
                    exact ctxInv_trans env (ihG m.locationType false config value c1 hval)
                      (ihX rest _ _ c1 a config' h)
                  next => exact absurd h (by simp)
                  next => exact absurd h (by simp)
            next hvd =>
              exact ihX rest _ _ config a config' h
    · intro ms flag config a config' h
      match ms with
      | [] =>
        simp only [mapGetSchemaByType, Res.ok.injEq] at h
        obtain ⟨rfl, rfl⟩ := h
        exact ctxInv_refl env _
      | t :: ts =>
        simp only [mapGetSchemaByType] at h
        split at h
        next s c1 hs =>
          split at h
          next l c2 hl =>
            simp only [Res.ok.injEq] at h
            obtain ⟨rfl, rfl⟩ := h
            exact ctxInv_trans env (ihG t flag config s c1 hs) (ihL ts flag c1 l c2 hl)
          next => exact absurd h (by simp)
          next => exact absurd h (by simp)
        next => exact absurd h (by simp)
        next => exact absurd h (by simp)

/-- A successful `extendClass` run returns an inline object fragment: no
reference, `type: 'object'`, and a present `properties` map. -/
theorem extendClass_ok_shape (env : Env) (fuel : Nat) (ms : List Member)
    (idxNum idxStr : Option Ty) (config : GetSchemaConfig) (s : SchemaObject)
    (config' : GetSchemaConfig)
    (h : extendClass env fuel ms idxNum idxStr config = .ok s config') :
    s.ref = none ∧ s.type = some "object" ∧ s.properties.isSome = true := by
  match fuel with
  | 0 => simp [extendClass] at h
  | fuel + 1 =>
    simp only [extendClass] at h
    split at h
    next it heq =>
      split at h
      next ap c1 hidx =>
        split at h
        next pr c2 hexp =>
          simp only [Res.ok.injEq] at h
          obtain ⟨rfl, rfl⟩ := h
          exact ⟨rfl, rfl, rfl⟩
        next => exact absurd h (by simp)
        next => exact absurd h (by simp)
      next => exact absurd h (by simp)
      next => exact absurd h (by simp)
    next heq =>
      split at h
      next pr c2 hexp =>
        simp only [Res.ok.injEq] at h
        obtain ⟨rfl, rfl⟩ := h
        exact ⟨rfl, rfl, rfl⟩
      next => exact absurd h (by simp)
      next => exact absurd h (by simp)

/-- C10: an anonymous structural type is expanded inline at its use site to
an object fragment regardless of the `extendClass` mode flag (the dispatch
arm of source lines 91-93 ignores it); the expansion produces no reference,
and during it every new cache entry records the declared name of a nominal
identity (so none is keyed by the anonymous type, which has no identity) and
every new registry key is the schema name of such a nominal cache entry. -/
theorem C10_anonymous_inlined (env : Env) (fuel : Nat) (arrow : Bool) (ms : List Member)
    (idxNum idxStr : Option Ty) (extendFlag : Bool) (config : GetSchemaConfig) :
    getSchemaByType env fuel (.anon arrow ms idxNum idxStr) extendFlag config =
      getSchemaByType env fuel (.anon arrow ms idxNum idxStr) (!extendFlag) config ∧
    (∀ s config',
      getSchemaByType env fuel (.anon arrow ms idxNum idxStr) extendFlag config =
        .ok s config' →
      s.ref = none ∧ s.type = some "object" ∧ s.properties.isSome = true ∧
      (∃ d, config'.typeCache = config.typeCache ++ d ∧
        ∀ c ∈ d, c.typeName = (declOf env c.type).name) ∧
      (∀ k, lookupKey config'.schemaObjects k ≠ none →
        lookupKey config.schemaObjects k ≠ none ∨
          ∃ c ∈ config'.typeCache, c.schemaName = k)) := by
  constructor
  · match fuel with
    | 0 => rfl
    | fuel + 1 => rfl
  · match fuel with
    | 0 => intro s config' h; simp [getSchemaByType] at h
    | fuel + 1 =>
      intro s config' h
      have hcall : extendClass env fuel ms idxNum idxStr config = .ok s config' := h
      have hinv := ((ctxInv_run env fuel).2.2.1) ms idxNum idxStr config s config' hcall
      have hshape := extendClass_ok_shape env fuel ms idxNum idxStr config s config' hcall
      exact ⟨hshape.1, hshape.2.1, hshape.2.2, hinv.1, hinv.2⟩

/-- Witness for `C10_anonymous_inlined` at a concrete anonymous type with
one primitive member, in both modes. -/
theorem C10_anonymous_inlined_witness :
    (SchemaObject.mk none (some "object") none none none none none
        (some [("x", .mk none (some "number") none none none none none none none none none)])
        (some ["x"]) none none).ref = none ∧
      (SchemaObject.mk none (some "object") none none none none none
        (some [("x", .mk none (some "number") none none none none none none none none none)])
        (some ["x"]) none none).type = some "object" ∧
      (SchemaObject.mk none (some "object") none none none none none
        (some [("x", .mk none (some "number") none none none none none none none none none)])
        (some ["x"]) none none).properties.isSome = true ∧
      (∃ d, (⟨[], []⟩ : GetSchemaConfig).typeCache =
          (⟨[], []⟩ : GetSchemaConfig).typeCache ++ d ∧
        ∀ c ∈ d, c.typeName = (declOf [] c.type).name) ∧
      (∀ k, lookupKey (⟨[], []⟩ : GetSchemaConfig).schemaObjects k ≠ none →
        lookupKey (⟨[], []⟩ : GetSchemaConfig).schemaObjects k ≠ none ∨
          ∃ c ∈ (⟨[], []⟩ : GetSchemaConfig).typeCache, c.schemaName = k) :=
  (C10_anonymous_inlined [] 9 false
      [.mk "x" none (some ⟨none, false, .propertyLike⟩) none (.other "number")]
      none none true ⟨[], []⟩).2
    (.mk none (some "object") none none none none none
      (some [("x", .mk none (some "number") none none none none none none none none none)])
      (some ["x"]) none none)
    ⟨[], []⟩ rfl

/-- Occurrence of a reference string `r` (a full `$ref` value) anywhere in a
schema fragment: at its own `ref` field or nested under `items`,
`additionalProperties`, `oneOf`, `allOf` or a property value. -/
inductive RefIn : String → SchemaObject → Prop where
  | here {r s} : s.ref = some r → RefIn r s
  | items {r s t} : s.items = some t → RefIn r t → RefIn r s
  | addProps {r s t} : s.additionalProperties = some t → RefIn r t → RefIn r s
  | oneOf {r s l t} : s.oneOf = some l → t ∈ l → RefIn r t → RefIn r s
  | allOf {r s l t} : s.allOf = some l → t ∈ l → RefIn r t → RefIn r s
  | prop {r s l k t} : s.properties = some l → (k, t) ∈ l → RefIn r t → RefIn r s

/-- Inversion of `RefIn` over a literal fragment. -/
theorem refIn_elim {r : String} {d t f e : _} {it oo ao pr rq ap rf : _}
    (h : RefIn r (.mk d t f e it oo ao pr rq ap rf)) :
    rf = some r ∨ (∃ v, it = some v ∧ RefIn r v) ∨ (∃ v, ap = some v ∧ RefIn r v) ∨
    (∃ l v, oo = some l ∧ v ∈ l ∧ RefIn r v) ∨ (∃ l v, ao = some l ∧ v ∈ l ∧ RefIn r v) ∨
    (∃ l k v, pr = some l ∧ (k, v) ∈ l ∧ RefIn r v) := by
  cases h with
  | here h => exact Or.inl (by simpa [SchemaObject.ref] using h)
  | items h hin => exact Or.inr (Or.inl ⟨_, by simpa [SchemaObject.items] using h, hin⟩)
  | addProps h hin => exact Or.inr (Or.inr (Or.inl ⟨_,
      by simpa [SchemaObject.additionalProperties] using h, hin⟩))
  | oneOf h hm hin => exact Or.inr (Or.inr (Or.inr (Or.inl ⟨_, _,
      by simpa [SchemaObject.oneOf] using h, hm, hin⟩)))
  | allOf h hm hin => exact Or.inr (Or.inr (Or.inr (Or.inr (Or.inl ⟨_, _,
      by simpa [SchemaObject.allOf] using h, hm, hin⟩))))
  | prop h hm hin => exact Or.inr (Or.inr (Or.inr (Or.inr (Or.inr ⟨_, _, _,
      by simpa [SchemaObject.properties] using h, hm, hin⟩))))

/-- References are preserved by a description update. -/
theorem refIn_setPropFragment {r : String} (m : Member) (v : SchemaObject)
    (h : RefIn r (setPropFragment m v)) : RefIn r v := by
  cases v with
  | mk d t f e it oo ao pr rq ap rf =>
    simp only [setPropFragment, SchemaObject.withDescription] at h
    rcases refIn_elim h with h | ⟨w, hw, hin⟩ | ⟨w, hw, hin⟩ | ⟨l, w, hl, hm, hin⟩ |
      ⟨l, w, hl, hm, hin⟩ | ⟨l, k, w, hl, hm, hin⟩
    · exact .here (by simpa [SchemaObject.ref] using h)
    · exact .items (by simpa [SchemaObject.items] using hw) hin
    · exact .addProps (by simpa [SchemaObject.additionalProperties] using hw) hin
    · exact .oneOf (by simpa [SchemaObject.oneOf] using hl) hm hin
    · exact .allOf (by simpa [SchemaObject.allOf] using hl) hm hin
    · exact .prop (by simpa [SchemaObject.properties] using hl) hm hin

/-- A name is live in a context when it is a registry key or the schema name
of a cache entry. -/
def liveKey (config : GetSchemaConfig) (k : String) : Prop :=
  lookupKey config.schemaObjects k ≠ none ∨ ∃ c ∈ config.typeCache, c.schemaName = k

/-- Every reference in the fragment points at a live name. -/
def refsOk (config : GetSchemaConfig) (s : SchemaObject) : Prop :=
  ∀ r, RefIn r s → ∃ n, liveKey config n ∧ r = "#/components/schemas/" ++ n

/-- Every registered fragment only references live names. -/
def regClosed (config : GetSchemaConfig) : Prop :=
  ∀ k v, lookupKey config.schemaObjects k = some v → refsOk config v

/-- A name is pending when a cache entry carries it but it is not yet a
registry key. -/
def pendingKey (config : GetSchemaConfig) (k : String) : Prop :=
  (∃ c ∈ config.typeCache, c.schemaName = k) ∧ lookupKey config.schemaObjects k = none

/-- Relational invariant for the reference-tracking induction: the final
registry is closed, keys persist, the schema names of cache entries persist,
and no new pending name appears. -/
def refsInv (config config' : GetSchemaConfig) : Prop :=
  regClosed config' ∧
  (∀ k, lookupKey config.schemaObjects k ≠ none →
    lookupKey config'.schemaObjects k ≠ none) ∧
  (∀ c ∈ config.typeCache, ∃ c' ∈ config'.typeCache, c'.schemaName = c.schemaName) ∧
  (∀ k, pendingKey config' k → pendingKey config k)

theorem liveKey_mono {config config' : GetSchemaConfig} (h : refsInv config config') :
    ∀ k, liveKey config k → liveKey config' k := by
  intro k hk
  rcases hk with hk | ⟨c, hc, hcs⟩
  · exact Or.inl (h.2.1 k hk)
  · obtain ⟨c', hc', hcs'⟩ := h.2.2.1 c hc
    exact Or.inr ⟨c', hc', hcs'.trans hcs⟩

theorem refsOk_mono {config config' : GetSchemaConfig} (h : refsInv config config')
    {s : SchemaObject} (hs : refsOk config s) : refsOk config' s := by
  intro r hr
  obtain ⟨n, hn, hrn⟩ := hs r hr
  exact ⟨n, liveKey_mono h n hn, hrn⟩

theorem refsInv_refl {config : GetSchemaConfig} (h : regClosed config) :
    refsInv config config :=
  ⟨h, fun _ hk => hk, fun c hc => ⟨c, hc, rfl⟩, fun _ hp => hp⟩

theorem refsInv_trans {a b c : GetSchemaConfig} (h1 : refsInv a b) (h2 : refsInv b c) :
    refsInv a c := by
  refine ⟨h2.1, fun k hk => h2.2.1 k (h1.2.1 k hk), ?_, fun k hp => h1.2.2.2 k (h2.2.2.2 k hp)⟩
  intro e he
  obtain ⟨e', he', hes'⟩ := h1.2.2.1 e he
  obtain ⟨e'', he'', hes''⟩ := h2.2.2.1 e' he'
  exact ⟨e'', he'', hes''.trans hes'⟩

theorem refsOk_mk_plain (config : GetSchemaConfig) (d t f e rq) :
    refsOk config (.mk d t f e none none none none rq none none) := by
  intro r hr
  rcases refIn_elim hr with hx | ⟨v, hv, _⟩ | ⟨v, hv, _⟩ | ⟨l, v, hl, _, _⟩ |
    ⟨l, v, hl, _, _⟩ | ⟨l, k, v, hl, _, _⟩
  · exact absurd hx (by simp)
  · exact absurd hv (by simp)
  · exact absurd hv (by simp)
  · exact absurd hl (by simp)
  · exact absurd hl (by simp)
  · exact absurd hl (by simp)

theorem refsOk_mk_items (config : GetSchemaConfig) (items : SchemaObject)
    (h : refsOk config items) (d t f e rq) :
    refsOk config (.mk d t f e (some items) none none none rq none none) := by
  intro r hr
  rcases refIn_elim hr with hx | ⟨v, hv, hin⟩ | ⟨v, hv, _⟩ | ⟨l, v, hl, _, _⟩ |
    ⟨l, v, hl, _, _⟩ | ⟨l, k, v, hl, _, _⟩
  · exact absurd hx (by simp)
  · obtain rfl := Option.some.inj hv
    exact h r hin
  · exact absurd hv (by simp)
  · exact absurd hl (by simp)
  · exact absurd hl (by simp)
  · exact absurd hl (by simp)

theorem refsOk_mk_oneOf (config : GetSchemaConfig) (ll : List SchemaObject)
    (h : ∀ s ∈ ll, refsOk config s) (d t f e rq) :
    refsOk config (.mk d t f e none (some ll) none none rq none none) := by
  intro r hr
  rcases refIn_elim hr with hx | ⟨v, hv, _⟩ | ⟨v, hv, _⟩ | ⟨l, v, hl, hm, hin⟩ |
    ⟨l, v, hl, _, _⟩ | ⟨l, k, v, hl, _, _⟩
  · exact absurd hx (by simp)
  · exact absurd hv (by simp)
  · exact absurd hv (by simp)
  · obtain rfl := Option.some.inj hl
    exact h v hm r hin
  · exact absurd hl (by simp)
  · exact absurd hl (by simp)

theorem refsOk_mk_allOf (config : GetSchemaConfig) (ll : List SchemaObject)
    (h : ∀ s ∈ ll, refsOk config s) (d t f e rq) :
    refsOk config (.mk d t f e none none (some ll) none rq none none) := by
  intro r hr
  rcases refIn_elim hr with hx | ⟨v, hv, _⟩ | ⟨v, hv, _⟩ | ⟨l, v, hl, _, _⟩ |
    ⟨l, v, hl, hm, hin⟩ | ⟨l, k, v, hl, _, _⟩
  · exact absurd hx (by simp)
  · exact absurd hv (by simp)
  · exact absurd hv (by simp)
  · exact absurd hl (by simp)
  · obtain rfl := Option.some.inj hl
    exact h v hm r hin
  · exact absurd hl (by simp)

theorem refsOk_refSchema (config : GetSchemaConfig) (n : String) (h : liveKey config n) :
    refsOk config (refSchema n) := by
  intro r hr
  rcases refIn_elim hr with hx | ⟨v, hv, _⟩ | ⟨v, hv, _⟩ | ⟨l, v, hl, _, _⟩ |
    ⟨l, v, hl, _, _⟩ | ⟨l, k, v, hl, _, _⟩
  · exact ⟨n, h, (Option.some.inj hx).symm⟩
  · exact absurd hv (by simp)
  · exact absurd hv (by simp)
  · exact absurd hl (by simp)
  · exact absurd hl (by simp)
  · exact absurd hl (by simp)

theorem refsOk_mk_obj (config : GetSchemaConfig) (prl : List (String × SchemaObject))
    (apo : Option SchemaObject) (hprops : ∀ p ∈ prl, refsOk config p.2)
    (hap : ∀ v, apo = some v → refsOk config v) (d t f e rq) :
    refsOk config (.mk d t f e none none none (some prl) rq apo none) := by
  intro r hr
  rcases refIn_elim hr with hx | ⟨v, hv, _⟩ | ⟨v, hv, hin⟩ | ⟨l, v, hl, _, _⟩ |
    ⟨l, v, hl, _, _⟩ | ⟨l, k, v, hl, hm, hin⟩
  · exact absurd hx (by simp)
  · exact absurd hv (by simp)
  · exact hap v hv r hin
  · exact absurd hl (by simp)
  · exact absurd hl (by simp)
  · obtain rfl := Option.some.inj hl
    exact hprops (k, v) hm r hin

theorem liveKey_mono2 {c1 c2 : GetSchemaConfig}
    (hkeys : ∀ k, lookupKey c1.schemaObjects k ≠ none → lookupKey c2.schemaObjects k ≠ none)
    (hcache : ∀ c ∈ c1.typeCache, ∃ c' ∈ c2.typeCache, c'.schemaName = c.schemaName) :
    ∀ k, liveKey c1 k → liveKey c2 k := by
  intro k hk
  rcases hk with hk | ⟨c, hc, hcs⟩
  · exact Or.inl (hkeys k hk)
  · obtain ⟨c', hc', hcs'⟩ := hcache c hc
    exact Or.inr ⟨c', hc', hcs'.trans hcs⟩

/-- Reference tracking across the registration step of `addRefTypeSchema`
(lines 121-140 without the deduplication branch): pushing the cache entry,
inline-expanding, storing the hash in place and registering the fragment
keeps every reference live, keeps the registry closed, and creates no new
pending name. -/
theorem refs_register_step (config config2 : GetSchemaConfig) (e : TypeCache)
    (d : List TypeCache) (schema hashv : SchemaObject)
    (hd : config2.typeCache = config.typeCache ++ e :: d)
    (hreg2 : regClosed config2)
    (hOk2 : refsOk config2 schema)
    (hInv12 : refsInv (⟨config.schemaObjects, config.typeCache ++ [e]⟩ : GetSchemaConfig)
      config2) :
    refsOk (⟨setKey config2.schemaObjects e.schemaName schema,
        modifyAt config2.typeCache config.typeCache.length
          (fun c => ⟨c.typeName, c.schemaName, c.type, some hashv⟩)⟩ : GetSchemaConfig)
      (refSchema e.schemaName) ∧
    refsInv config
      (⟨setKey config2.schemaObjects e.schemaName schema,
        modifyAt config2.typeCache config.typeCache.length
          (fun c => ⟨c.typeName, c.schemaName, c.type, some hashv⟩)⟩ : GetSchemaConfig) := by
  have hc4 : modifyAt config2.typeCache config.typeCache.length
      (fun c => ⟨c.typeName, c.schemaName, c.type, some hashv⟩) =
      config.typeCache ++ ⟨e.typeName, e.schemaName, e.type, some hashv⟩ :: d := by
    rw [hd, modifyAt_append]
    rfl
  have hkeys24 : ∀ k, lookupKey config2.schemaObjects k ≠ none →
      lookupKey (setKey config2.schemaObjects e.schemaName schema) k ≠ none := by
    intro k hk
    rw [lookupKey_setKey]
    by_cases hkn : k = e.schemaName
    · simp [hkn]
    · rw [if_neg hkn]; exact hk
  have hcache24 : ∀ c ∈ config2.typeCache,
      ∃ c' ∈ modifyAt config2.typeCache config.typeCache.length
        (fun c => ⟨c.typeName, c.schemaName, c.type, some hashv⟩),
        c'.schemaName = c.schemaName := by
    intro c hc
    rw [hd] at hc
    rw [hc4]
    rcases List.mem_append.mp hc with hc | hc
    · exact ⟨c, List.mem_append_left _ hc, rfl⟩
    · rcases List.mem_cons.mp hc with hc | hc
      · refine ⟨⟨e.typeName, e.schemaName, e.type, some hashv⟩,
          List.mem_append_right _ (List.mem_cons_self _ _), ?_⟩
        rw [hc]
      · exact ⟨c, List.mem_append_right _ (List.mem_cons_of_mem _ hc), rfl⟩
  have hmono24 : ∀ k, liveKey config2 k →
      liveKey (⟨setKey config2.schemaObjects e.schemaName schema,
        modifyAt config2.typeCache config.typeCache.length
          (fun c => ⟨c.typeName, c.schemaName, c.type, some hashv⟩)⟩ : GetSchemaConfig) k :=
    liveKey_mono2 hkeys24 hcache24
  have hOkMono : ∀ s, refsOk config2 s →
      refsOk (⟨setKey config2.schemaObjects e.schemaName schema,
        modifyAt config2.typeCache config.typeCache.length
          (fun c => ⟨c.typeName, c.schemaName, c.type, some hashv⟩)⟩ : GetSchemaConfig) s := by
    intro s hs r hr
    obtain ⟨n, hn, hrn⟩ := hs r hr
    exact ⟨n, hmono24 n hn, hrn⟩
  have hkeys02 : ∀ k, lookupKey config.schemaObjects k ≠ none →
      lookupKey config2.schemaObjects k ≠ none := hInv12.2.1
  refine ⟨?_, ?_, ?_, ?_, ?_⟩
  · refine refsOk_refSchema _ _ (Or.inl ?_)
    rw [lookupKey_setKey, if_pos rfl]
    simp
  · intro k v hv
    rw [lookupKey_setKey] at hv
    by_cases hkn : k = e.schemaName
    · rw [if_pos hkn, Option.some.injEq] at hv
      rw [← hv]
      exact hOkMono schema hOk2
    · rw [if_neg hkn] at hv
      exact hOkMono v (hreg2 k v hv)
  · intro k hk
    exact hkeys24 k (hkeys02 k hk)
  · intro c hc
    rw [hc4]
    exact ⟨c, List.mem_append_left _ hc, rfl⟩
  · intro k hp
    obtain ⟨⟨c, hc, hcs⟩, hlk⟩ := hp
    simp only at hc hlk
    rw [lookupKey_setKey] at hlk
    by_cases hkn : k = e.schemaName
    · rw [if_pos hkn] at hlk
      exact absurd hlk (by simp)
    · rw [if_neg hkn] at hlk
      have hlk0 : lookupKey config.schemaObjects k = none := by
        by_contra hcon
        exact (hkeys02 k hcon) hlk
      rw [hc4] at hc
      rcases List.mem_append.mp hc with hc' | hc'
      · exact ⟨⟨c, hc', hcs⟩, hlk0⟩
      · rcases List.mem_cons.mp hc' with hc'' | hc''
        · rw [hc''] at hcs
          exact absurd hcs.symm hkn
        · have hpend2 : pendingKey config2 k := by
            refine ⟨⟨c, ?_, hcs⟩, hlk⟩
            rw [hd]
            exact List.mem_append_right _ (List.mem_cons_of_mem _ hc'')
          obtain ⟨⟨c', hc', hcs'⟩, hlk1⟩ := hInv12.2.2.2 k hpend2
          simp only at hc' hlk1
          rcases List.mem_append.mp hc' with hc3 | hc3
          · exact ⟨⟨c', hc3, hcs'⟩, hlk1⟩
          · rw [List.mem_singleton] at hc3
            rw [hc3] at hcs'
            exact absurd hcs'.symm hkn

/-- Reference-tracking invariant for every successful run of the five
mutually recursive functions: starting from a closed registry, every
reference in the produced fragment names a live name, the final registry is
closed, registry keys and cache schema names persist, and no new pending
name survives the call. -/
theorem refs_run (env : Env) : ∀ fuel : Nat,
    (∀ ty0 flag config a config', regClosed config →
      getSchemaByType env fuel ty0 flag config = .ok a config' →
      refsOk config' a ∧ refsInv config config') ∧
    (∀ id config a config', regClosed config →
      addRefTypeSchema env fuel id config = .ok a config' →
      refsOk config' a ∧ refsInv config config') ∧
    (∀ ms idxNum idxStr config a config', regClosed config →
      extendClass env fuel ms idxNum idxStr config = .ok a config' →
      refsOk config' a ∧ refsInv config config') ∧
    (∀ ms props reqd config a config', regClosed config →
      (∀ p ∈ props, refsOk config p.2) →
      expandMembers env fuel ms props reqd config = .ok a config' →
      (∀ p ∈ a.1, refsOk config' p.2) ∧ refsInv config config') ∧
    (∀ ms flag config a config', regClosed config →
      mapGetSchemaByType env fuel ms flag config = .ok a config' →
      (∀ s ∈ a, refsOk config' s) ∧ refsInv config config') := by
  intro fuel
  induction fuel with
  | zero =>
    exact ⟨fun ty0 flag config a config' _ h => by simp [getSchemaByType] at h,
      fun id config a config' _ h => by simp [addRefTypeSchema] at h,
      fun ms i1 i2 config a config' _ h => by simp [extendClass] at h,
      fun ms p r config a config' _ _ h => by simp [expandMembers] at h,
      fun ms flag config a config' _ h => by simp [mapGetSchemaByType] at h⟩
  | succ fuel ih =>
    obtain ⟨ihG, ihA, ihE, ihX, ihL⟩ := ih
    have hdisp : ∀ (t : Ty) (flag : Bool) (config : GetSchemaConfig) a config',
        isPromiseTy t = false → regClosed config →
        getSchemaByType env (fuel + 1) t flag config = .ok a config' →
        refsOk config' a ∧ refsInv config config' := by
      intro t flag config a config' hnp hreg h
      cases t with
      | promise arg => simp [isPromiseTy] at hnp
      | arr elem =>
        simp only [getSchemaByType] at h
        split at h
        next items c1 hrec =>
          simp only [Res.ok.injEq] at h
          obtain ⟨rfl, rfl⟩ := h
          obtain ⟨hOk, hInv⟩ := ihG elem flag config items c1 hreg hrec
          exact ⟨refsOk_mk_items c1 items hOk none (some "array") none none none, hInv⟩
        next => exact absurd h (by simp)
        next => exact absurd h (by simp)
      | union bf ms =>
        cases bf with
        | true =>
          simp only [getSchemaByType, Res.ok.injEq] at h
          obtain ⟨rfl, rfl⟩ := h
          exact ⟨refsOk_mk_plain _ _ _ _ _ _, refsInv_refl hreg⟩
        | false =>
          simp only [getSchemaByType] at h
          split at h
          next hall =>
            simp only [Res.ok.injEq] at h
            obtain ⟨rfl, rfl⟩ := h
            exact ⟨refsOk_mk_plain _ _ _ _ _ _, refsInv_refl hreg⟩
          next hall =>
            split at h
            next l c1 hmap =>
              simp only [Res.ok.injEq] at h
              obtain ⟨rfl, rfl⟩ := h
              obtain ⟨hOk, hInv⟩ := ihL ms flag config l c1 hreg hmap
              exact ⟨refsOk_mk_oneOf c1 l hOk none (some "object") none none none, hInv⟩
            next => exact absurd h (by simp)
            next => exact absurd h (by simp)
      | intersection ms =>
        simp only [getSchemaByType] at h
        split at h
        next l c1 hmap =>
          simp only [Res.ok.injEq] at h
          obtain ⟨rfl, rfl⟩ := h
          obtain ⟨hOk, hInv⟩ := ihL ms flag config l c1 hreg hmap
          exact ⟨refsOk_mk_allOf c1 l hOk none (some "object") none none none, hInv⟩
        next => exact absurd h (by simp)
        next => exact absurd h (by simp)
      | nominal id =>
        simp only [getSchemaByType] at h
        split at h
        next hd =>
          simp only [Res.ok.injEq] at h
          obtain ⟨rfl, rfl⟩ := h
          exact ⟨refsOk_mk_plain _ _ _ _ _ _, refsInv_refl hreg⟩
        next hd =>
          split at h
          next ho =>
            simp only [Res.ok.injEq] at h
            obtain ⟨rfl, rfl⟩ := h
            exact ⟨refsOk_mk_plain _ _ _ _ _ _, refsInv_refl hreg⟩
          next ho =>
            split at h
            next hf => exact ihE _ _ _ config a config' hreg h
            next hf => exact ihA id config a config' hreg h
      | anon arrow ms i1 i2 =>
        simp only [getSchemaByType] at h
        exact ihE ms i1 i2 config a config' hreg h
      | enumLiteral v =>
        simp only [getSchemaByType, Res.ok.injEq] at h
        obtain ⟨rfl, rfl⟩ := h
        exact ⟨refsOk_mk_plain _ _ _ _ _ _, refsInv_refl hreg⟩
      | other s =>
        simp only [getSchemaByType, Res.ok.injEq] at h
        obtain ⟨rfl, rfl⟩ := h
        exact ⟨refsOk_mk_plain _ _ _ _ _ _, refsInv_refl hreg⟩
    refine ⟨?_, ?_, ?_, ?_, ?_⟩
    · intro ty0 flag config a config' hreg h
      cases ty0
      case promise arg =>
        cases arg
        case promise b =>
          simp only [getSchemaByType, Res.ok.injEq] at h
          obtain ⟨rfl, rfl⟩ := h
          exact ⟨refsOk_mk_plain _ _ _ _ _ _, refsInv_refl hreg⟩
        all_goals rw [getSchemaByType_promise env (fuel + 1) _ flag config (by rfl)] at h
        all_goals exact hdisp _ flag config a config' (by rfl) hreg h
      all_goals exact hdisp _ flag config a config' (by rfl) hreg h
    · intro id config a config' hreg h
      simp only [addRefTypeSchema] at h
      split at h
      next cache hfind =>
        simp only [Res.ok.injEq] at h
        obtain ⟨rfl, rfl⟩ := h
        refine ⟨refsOk_refSchema _ _
          (Or.inr ⟨cache, List.mem_of_find?_eq_some hfind, rfl⟩), refsInv_refl hreg⟩
      next hfind =>
        split at h
        next schema config2 hrec =>
          split at h
          next hdup => exact absurd h (by simp)
          next hdup =>
            simp only [Res.ok.injEq] at h
            obtain ⟨rfl, rfl⟩ := h
            have hreg1 : regClosed (⟨config.schemaObjects,
                config.typeCache ++ [⟨(declOf env id).name,
                  allocateSchemaName config.schemaObjects (declOf env id).name, id,
                  none⟩]⟩ : GetSchemaConfig) := by
              intro k v hv r hr
              obtain ⟨n, hn, hrn⟩ := hreg k v hv r hr
              refine ⟨n, ?_, hrn⟩
              rcases hn with hn | ⟨c, hc, hcs⟩
              · exact Or.inl hn
              · exact Or.inr ⟨c, List.mem_append_left _ hc, hcs⟩
            obtain ⟨hOk2, hInv12⟩ := ihG (.nominal id) true _ schema config2 hreg1 hrec
            obtain ⟨⟨d, hd, _⟩, _⟩ :=
              (ctxInv_run env fuel).1 (.nominal id) true _ schema config2 hrec
            simp only at hd
            rw [List.append_assoc, List.singleton_append] at hd
            exact refs_register_step config config2
              ⟨(declOf env id).name,
                allocateSchemaName config.schemaObjects (declOf env id).name, id, none⟩
              d schema (getHashCode schema) hd hInv12.1 hOk2 hInv12
        next => exact absurd h (by simp)
        next => exact absurd h (by simp)
    · intro ms idxNum idxStr config a config' hreg h
      simp only [extendClass] at h
      split at h
      next indexType heq =>
        split at h
        next ap c1 hidx =>
          split at h
          next pr c2 hexp =>
            simp only [Res.ok.injEq] at h
            obtain ⟨rfl, rfl⟩ := h
            obtain ⟨hOkAp, hInv01⟩ := ihG indexType false config ap c1 hreg hidx
            obtain ⟨hOkPr, hInv12⟩ := ihX (ms.filter memberKept) [] [] c1 pr c2 hInv01.1
              (fun p hp => absurd hp (List.not_mem_nil p)) hexp
            refine ⟨refsOk_mk_obj c2 pr.1 (some ap) hOkPr ?_ none (some "object") none none
              (some pr.2), refsInv_trans hInv01 hInv12⟩
            intro v hv
            obtain rfl := Option.some.inj hv
            exact refsOk_mono hInv12 hOkAp
          next => exact absurd h (by simp)
          next => exact absurd h (by simp)
        next => exact absurd h (by simp)
        next => exact absurd h (by simp)
      next heq =>
        split at h
        next pr c2 hexp =>
          simp only [Res.ok.injEq] at h
          obtain ⟨rfl, rfl⟩ := h
          obtain ⟨hOkPr, hInv12⟩ := ihX (ms.filter memberKept) [] [] config pr c2 hreg
            (fun p hp => absurd hp (List.not_mem_nil p)) hexp
          refine ⟨refsOk_mk_obj c2 pr.1 none hOkPr ?_ none (some "object") none none
            (some pr.2), hInv12⟩
          intro v hv
          exact absurd hv (by simp)
        next => exact absurd h (by simp)
        next => exact absurd h (by simp)
    · intro ms props reqd config a config' hreg hprops h
      match ms with
      | [] =>
        simp only [expandMembers, Res.ok.injEq] at h
        obtain ⟨rfl, rfl⟩ := h
        exact ⟨hprops, refsInv_refl hreg⟩
      | m :: rest =>
        simp only [expandMembers] at h
        by_cases hml : isMethodLike m
        · rw [if_pos hml] at h
          exact ihX rest props reqd config a config' hreg hprops h
        · rw [if_neg hml] at h
          split at h
          next targetType hst =>
            split at h
            next value c1 hval =>
              obtain ⟨hOkV, hInv01⟩ := ihG targetType false config value c1 hreg hval
              have hprops1 : ∀ p ∈ setKey props m.name (setPropFragment m value),
                  refsOk c1 p.2 := by
                intro p hp
                rcases mem_setKey props m.name (setPropFragment m value) p hp with hp' | hp'
                · rw [hp']
                  intro r hr
                  exact hOkV r (refIn_setPropFragment m value hr)
                · exact refsOk_mono hInv01 (hprops p hp')
              obtain ⟨hOkP, hInv12⟩ := ihX rest _ _ c1 a config' hInv01.1 hprops1 h
              exact ⟨hOkP, refsInv_trans hInv01 hInv12⟩
            next => exact absurd h (by simp)
            next => exact absurd h (by simp)
          next hst =>
            split at h
            next vd hvd =>
              split at h
              next hfn => exact ihX rest props reqd config a config' hreg hprops h
              next hfn =>
                split at h
                next harrow => exact ihX rest props reqd config a config' hreg hprops h
                next harrow =>
                  split at h
                  next value c1 hval =>
                    obtain ⟨hOkV, hInv01⟩ :=
                      ihG m.locationType false config value c1 hreg hval
                    have hprops1 : ∀ p ∈ setKey props m.name (setPropFragment m value),
                        refsOk c1 p.2 := by
                      intro p hp
                      rcases mem_setKey props m.name (setPropFragment m value) p hp with
                        hp' | hp'
                      · rw [hp']
                        intro r hr
                        exact hOkV r (refIn_setPropFragment m value hr)
                      · exact refsOk_mono hInv01 (hprops p hp')
                    obtain ⟨hOkP, hInv12⟩ :=
                      ihX rest _ _ c1 a config' hInv01.1 hprops1 h
                    exact ⟨hOkP, refsInv_trans hInv01 hInv12⟩
                  next => exact absurd h (by simp)
                  next => exact absurd h (by simp)
            next hvd =>
              refine ihX rest _ _ config a config' hreg ?_ h
              intro p hp
              rcases mem_setKey props m.name
                (setPropFragment m (.mk none (some "any") none none none none none none
                  none none none)) p hp with hp' | hp'
              · rw [hp']
                intro r hr
                exact refsOk_mk_plain config none (some "any") none none none r
                  (refIn_setPropFragment m _ hr)
              · exact hprops p hp'
    · intro ms flag config a config' hreg h
      match ms with
      | [] =>
        simp only [mapGetSchemaByType, Res.ok.injEq] at h
        obtain ⟨rfl, rfl⟩ := h
        exact ⟨fun s hs => absurd hs (List.not_mem_nil s), refsInv_refl hreg⟩
      | t :: ts =>
        simp only [mapGetSchemaByType] at h
        split at h
        next s c1 hs =>
          split at h
          next l c2 hl =>
            simp only [Res.ok.injEq] at h
            obtain ⟨rfl, rfl⟩ := h
            obtain ⟨hOkS, hInv01⟩ := ihG t flag config s c1 hreg hs
            obtain ⟨hOkL, hInv12⟩ := ihL ts flag c1 l c2 hInv01.1 hl
            refine ⟨?_, refsInv_trans hInv01 hInv12⟩
            intro x hx
            rcases List.mem_cons.mp hx with hx | hx
            · rw [hx]
              exact refsOk_mono hInv12 hOkS
            · exact hOkL x hx
          next => exact absurd h (by simp)
          next => exact absurd h (by simp)
        next => exact absurd h (by simp)
        next => exact absurd h (by simp)

/-- C4: after a root invocation on a fresh context completes, every
reference fragment `$ref: '#/components/schemas/<name>'` occurring in the
returned fragment or in any registered fragment names a key present in
`config.schemaObjects`. -/
theorem C4_no_dangling_refs (env : Env) (fuel : Nat) (ty0 : Ty) (extendFlag : Bool)
    (s : SchemaObject) (config' : GetSchemaConfig)
    (h : getSchemaByType env fuel ty0 extendFlag ⟨[], []⟩ = .ok s config') :
    (∀ r, RefIn r s → ∃ n v, lookupKey config'.schemaObjects n = some v ∧
      r = "#/components/schemas/" ++ n) ∧
    (∀ k v, lookupKey config'.schemaObjects k = some v →
      ∀ r, RefIn r v → ∃ n v', lookupKey config'.schemaObjects n = some v' ∧
        r = "#/components/schemas/" ++ n) := by
  have hreg0 : regClosed ⟨[], []⟩ := by
    intro k v hv
    simp [lookupKey, List.find?] at hv
  obtain ⟨hOk, hInv⟩ := (refs_run env fuel).1 ty0 extendFlag ⟨[], []⟩ s config' hreg0 h
  have hlive : ∀ n, liveKey config' n →
      ∃ v, lookupKey config'.schemaObjects n = some v := by
    intro n hn
    cases hl : lookupKey config'.schemaObjects n with
    | some v => exact ⟨v, rfl⟩
    | none =>
      rcases hn with hn | hcache
      · exact absurd hl hn
      · obtain ⟨⟨c, hc, _⟩, _⟩ := hInv.2.2.2 n ⟨hcache, hl⟩
        simp at hc
  constructor
  · intro r hr
    obtain ⟨n, hn, hrn⟩ := hOk r hr
    obtain ⟨v, hv⟩ := hlive n hn
    exact ⟨n, v, hv, hrn⟩
  · intro k v hv r hr
    obtain ⟨n, hn, hrn⟩ := hInv.1 k v hv r hr
    obtain ⟨v', hv'⟩ := hlive n hn
    exact ⟨n, v', hv', hrn⟩

/-- Witness for `C4_no_dangling_refs`: the self-referential `Node` run,
whose registry holds one entry referencing itself. -/
theorem C4_no_dangling_refs_witness :
    (∀ r, RefIn r (refSchema "Node") →
      ∃ n v, lookupKey (GetSchemaConfig.schemaObjects
          ⟨[("Node", .mk none (some "object") none none none none none
            (some [("value", .mk none (some "number") none none none none none none none
              none none),
             ("next", refSchema "Node")]) (some ["value"]) none none)],
           [⟨"Node", "Node", 0, some (.mk none (some "object") none none none none none
            (some [("value", .mk none (some "number") none none none none none none none
              none none),
             ("next", refSchema "Node")]) (some ["value"]) none none)⟩]⟩) n = some v ∧
          r = "#/components/schemas/" ++ n) ∧
    (∀ k v, lookupKey (GetSchemaConfig.schemaObjects
          ⟨[("Node", .mk none (some "object") none none none none none
            (some [("value", .mk none (some "number") none none none none none none none
              none none),
             ("next", refSchema "Node")]) (some ["value"]) none none)],
           [⟨"Node", "Node", 0, some (.mk none (some "object") none none none none none
            (some [("value", .mk none (some "number") none none none none none none none
              none none),
             ("next", refSchema "Node")]) (some ["value"]) none none)⟩]⟩) k = some v →
      ∀ r, RefIn r v → ∃ n v', lookupKey (GetSchemaConfig.schemaObjects
          ⟨[("Node", .mk none (some "object") none none none none none
            (some [("value", .mk none (some "number") none none none none none none none
              none none),
             ("next", refSchema "Node")]) (some ["value"]) none none)],
           [⟨"Node", "Node", 0, some (.mk none (some "object") none none none none none
            (some [("value", .mk none (some "number") none none none none none none none
              none none),
             ("next", refSchema "Node")]) (some ["value"]) none none)⟩]⟩) n = some v' ∧
        r = "#/components/schemas/" ++ n) :=
  C4_no_dangling_refs envNode 20 (.nominal 0) false (refSchema "Node") _ rfl

mutual
/-- Structural size of a type as traversed in reference mode: nominal types
count as leaves (their members are reached only through the cache-guarded
`addRefTypeSchema`), anonymous types include their inline members. -/
def tyS0 : Ty → Nat
  | .promise a => 1 + tyS0 a
  | .arr e => 1 + tyS0 e
  | .union _ ms => 2 + tyListS0 ms
  | .intersection ms => 2 + tyListS0 ms
  | .nominal _ => 2
  | .anon _ ms i1 i2 => 3 + memberListS0 ms + optTyS0 i1 + optTyS0 i2
  | .enumLiteral _ => 1
  | .other _ => 1
def optTyS0 : Option Ty → Nat
  | none => 0
  | some t => tyS0 t
def tyListS0 : List Ty → Nat
  | [] => 0
  | t :: ts => tyS0 t + tyListS0 ts
def memberS0 : Member → Nat
  | .mk _ _ _ st lt => 1 + optTyS0 st + tyS0 lt
def memberListS0 : List Member → Nat
  | [] => 0
  | m :: ms => memberS0 m + memberListS0 ms
end

/-- Size of a nominal declaration's inline expansion. -/
def declSize (env : Env) (id : Nat) : Nat :=
  1 + memberListS0 (declOf env id).members + optTyS0 (declOf env id).numberIndexType +
    optTyS0 (declOf env id).stringIndexType

mutual
/-- Size of a type as traversed in the given mode: in inline mode
(`extendClass` flag set) a nominal type counts its declaration's members,
because the flag propagates through arrays, unions and intersections down to
the class-or-interface dispatch arm. -/
def tySI (env : Env) : Bool → Ty → Nat
  | flag, .promise a => 1 + tySI env flag a
  | flag, .arr e => 1 + tySI env flag e
  | flag, .union _ ms => 2 + tyListSI env flag ms
  | flag, .intersection ms => 2 + tyListSI env flag ms
  | flag, .nominal id => if flag then 2 + declSize env id else 2
  | _, .anon _ ms i1 i2 => 3 + memberListS0 ms + optTyS0 i1 + optTyS0 i2
  | _, .enumLiteral _ => 1
  | _, .other _ => 1
def tyListSI (env : Env) : Bool → List Ty → Nat
  | _, [] => 0
  | flag, t :: ts => tySI env flag t + tyListSI env flag ts
end

mutual
/-- Well-formedness of a type over an environment of `n` declarations:
every nominal identity is in range. -/
def tyWFb (n : Nat) : Ty → Bool
  | .promise a => tyWFb n a
  | .arr e => tyWFb n e
  | .union _ ms => tyListWFb n ms
  | .intersection ms => tyListWFb n ms
  | .nominal id => id < n
  | .anon _ ms i1 i2 => memberListWFb n ms && optTyWFb n i1 && optTyWFb n i2
  | .enumLiteral _ => true
  | .other _ => true
def optTyWFb (n : Nat) : Option Ty → Bool
  | none => true
  | some t => tyWFb n t
def tyListWFb (n : Nat) : List Ty → Bool
  | [] => true
  | t :: ts => tyWFb n t && tyListWFb n ts
def memberWFb (n : Nat) : Member → Bool
  | .mk _ _ _ st lt => optTyWFb n st && tyWFb n lt
def memberListWFb (n : Nat) : List Member → Bool
  | [] => true
  | m :: ms => memberWFb n m && memberListWFb n ms
end

/-- Well-formedness of one declaration. -/
def declWFb (n : Nat) (d : Decl) : Bool :=
  memberListWFb n d.members && optTyWFb n d.numberIndexType && optTyWFb n d.stringIndexType

/-- Well-formedness of the whole environment: every declaration's member
and index types only mention in-range nominal identities. -/
def envWFb (env : Env) : Bool := env.all (declWFb env.length)

/-- Whether the identity `i` already has a cache entry. -/
def cachedB (cache : List TypeCache) (i : Nat) : Bool := cache.any (fun c => c.type == i)

/-- Number of in-range nominal identities without a cache entry: the
strictly decreasing component of the termination measure. -/
def uncachedCount (env : Env) (cache : List TypeCache) : Nat :=
  ((List.range env.length).filter (fun i => !cachedB cache i)).length

theorem filter_length_mono {α : Type} (p q : α → Bool) (l : List α)
    (h : ∀ x ∈ l, q x = true → p x = true) :
    (l.filter q).length ≤ (l.filter p).length := by
  induction l with
  | nil => simp
  | cons x xs ih =>
    have hx := h x (List.mem_cons_self x xs)
    have ih' := ih (fun y hy => h y (List.mem_cons_of_mem x hy))
    by_cases hq : q x = true
    · rw [List.filter_cons_of_pos hq, List.filter_cons_of_pos (hx hq)]
      simpa using ih'
    · rw [List.filter_cons_of_neg (by simpa using hq)]
      by_cases hp : p x = true
      · rw [List.filter_cons_of_pos hp]
        exact le_trans ih' (by simp)
      · rw [List.filter_cons_of_neg (by simpa using hp)]
        exact ih'

theorem filter_length_strict {α : Type} (p q : α → Bool) (l : List α)
    (h : ∀ x ∈ l, q x = true → p x = true) (a : α) (ha : a ∈ l)
    (hpa : p a = true) (hqa : q a = false) :
    (l.filter q).length < (l.filter p).length := by
  induction l with
  | nil => simp at ha
  | cons x xs ih =>
    have hmono := filter_length_mono p q xs (fun y hy => h y (List.mem_cons_of_mem x hy))
    rcases List.mem_cons.mp ha with rfl | ha'
    · rw [List.filter_cons_of_neg (by simp [hqa]), List.filter_cons_of_pos hpa]
      simpa using Nat.lt_succ_of_le hmono
    · have ih' := ih (fun y hy => h y (List.mem_cons_of_mem x hy)) ha'
      by_cases hq : q x = true
      · rw [List.filter_cons_of_pos hq, List.filter_cons_of_pos (h x (List.mem_cons_self x xs) hq)]
        simpa using ih'
      · rw [List.filter_cons_of_neg (by simpa using hq)]
        by_cases hp : p x = true
        · rw [List.filter_cons_of_pos hp]
          exact lt_of_lt_of_le ih' (by simp)
        · rw [List.filter_cons_of_neg (by simpa using hp)]
          exact ih'

/-- Growing the cache never increases the number of uncached identities. -/
theorem uncachedCount_append_le (env : Env) (c1 d : List TypeCache) :
    uncachedCount env (c1 ++ d) ≤ uncachedCount env c1 := by
  apply filter_length_mono
  intro i _ hq
  simp only [Bool.not_eq_true'] at hq ⊢
  simp only [cachedB, List.any_append, Bool.or_eq_false_iff] at hq
  exact hq.1

/-- Caching an in-range uncached identity strictly decreases the count. -/
theorem uncachedCount_push_lt (env : Env) (c1 : List TypeCache) (e : TypeCache)
    (hid : e.type < env.length) (hunc : cachedB c1 e.type = false) :
    uncachedCount env (c1 ++ [e]) < uncachedCount env c1 := by
  apply filter_length_strict _ _ _ _ e.type (by simp [List.mem_range, hid])
  · simp [hunc]
  · simp [cachedB, List.any_append]
  · intro i _ hq
    simp only [Bool.not_eq_true'] at hq ⊢
    simp only [cachedB, List.any_append, Bool.or_eq_false_iff] at hq
    exact hq.1


/-- Determinism across fuel: a run that does not exhaust its fuel returns
the same result when given one more unit, for all five mutually recursive
functions simultaneously. -/
theorem mono_run (env : Env) : ∀ fuel : Nat,
    (∀ ty0 flag config, getSchemaByType env fuel ty0 flag config ≠ .fuel →
      getSchemaByType env (fuel + 1) ty0 flag config =
        getSchemaByType env fuel ty0 flag config) ∧
    (∀ id config, addRefTypeSchema env fuel id config ≠ .fuel →
      addRefTypeSchema env (fuel + 1) id config = addRefTypeSchema env fuel id config) ∧
    (∀ ms idxNum idxStr config, extendClass env fuel ms idxNum idxStr config ≠ .fuel →
      extendClass env (fuel + 1) ms idxNum idxStr config =
        extendClass env fuel ms idxNum idxStr config) ∧
    (∀ ms props reqd config, expandMembers env fuel ms props reqd config ≠ .fuel →
      expandMembers env (fuel + 1) ms props reqd config =
        expandMembers env fuel ms props reqd config) ∧
    (∀ ms flag config, mapGetSchemaByType env fuel ms flag config ≠ .fuel →
      mapGetSchemaByType env (fuel + 1) ms flag config =
        mapGetSchemaByType env fuel ms flag config) := by
  intro fuel
  induction fuel with
  | zero =>
    exact ⟨fun ty0 flag config h => absurd rfl h,
      fun id config h => absurd rfl h,
      fun ms i1 i2 config h => absurd rfl h,
      fun ms p r config h => absurd rfl h,
      fun ms flag config h => absurd rfl h⟩
  | succ fuel ih =>
    obtain ⟨ihG, ihA, ihE, ihX, ihL⟩ := ih
    have hdisp : ∀ (t : Ty) (flag : Bool) (config : GetSchemaConfig),
        isPromiseTy t = false →
        getSchemaByType env (fuel + 1) t flag config ≠ .fuel →
        getSchemaByType env (fuel + 1 + 1) t flag config =
          getSchemaByType env (fuel + 1) t flag config := by
      intro t flag config hnp h
      cases t with
      | promise arg => simp [isPromiseTy] at hnp
      | arr elem =>
        simp only [getSchemaByType] at h
        have hne : getSchemaByType env fuel elem flag config ≠ .fuel := by
          intro hq; rw [hq] at h; exact h rfl
        conv_lhs => rw [getSchemaByType]
        conv_rhs => rw [getSchemaByType]
        simp [ihG elem flag config hne]
      | union bf ms =>
        cases bf with
        | true => rfl
        | false =>
          simp only [getSchemaByType] at h
          split at h
          next hall =>
            conv_lhs => rw [getSchemaByType]
            conv_rhs => rw [getSchemaByType]
            simp [hall]
          next hall =>
            have hne : mapGetSchemaByType env fuel ms flag config ≠ .fuel := by
              intro hq; rw [hq] at h; exact h rfl
            conv_lhs => rw [getSchemaByType]
            conv_rhs => rw [getSchemaByType]
            simp [hall, ihL ms flag config hne]
      | intersection ms =>
        simp only [getSchemaByType] at h
        have hne : mapGetSchemaByType env fuel ms flag config ≠ .fuel := by
          intro hq; rw [hq] at h; exact h rfl
        conv_lhs => rw [getSchemaByType]
        conv_rhs => rw [getSchemaByType]
        simp [ihL ms flag config hne]
      | nominal id =>
        simp only [getSchemaByType] at h
        split at h
        next hd =>
          conv_lhs => rw [getSchemaByType]
          conv_rhs => rw [getSchemaByType]
          simp [hd]
        next hd =>
          split at h
          next ho =>
            conv_lhs => rw [getSchemaByType]
            conv_rhs => rw [getSchemaByType]
            simp [hd, ho]
          next ho =>
            split at h
            next hf =>
              conv_lhs => rw [getSchemaByType]
              conv_rhs => rw [getSchemaByType]
              simp [hd, ho, hf, ihE (declOf env id).members (declOf env id).numberIndexType
                (declOf env id).stringIndexType config h]
            next hf =>
              conv_lhs => rw [getSchemaByType]
              conv_rhs => rw [getSchemaByType]
              simp [hd, ho, hf, ihA id config h]
      | anon arrow ms i1 i2 =>
        simp only [getSchemaByType] at h
        conv_lhs => rw [getSchemaByType]
        conv_rhs => rw [getSchemaByType]
        simp [ihE ms i1 i2 config h]
      | enumLiteral v => rfl
      | other s => rfl
    refine ⟨?_, ?_, ?_, ?_, ?_⟩
    · intro ty0 flag config h
      cases ty0
      case promise arg =>
        cases arg
        case promise b => rfl
        all_goals rw [getSchemaByType_promise env (fuel + 1) _ flag config (by rfl)] at h
        all_goals rw [getSchemaByType_promise env (fuel + 1 + 1) _ flag config (by rfl),
          getSchemaByType_promise env (fuel + 1) _ flag config (by rfl)]
        all_goals exact hdisp _ flag config (by rfl) h
      all_goals exact hdisp _ flag config (by rfl) h
    · intro id config h
      simp only [addRefTypeSchema] at h
      split at h
      next cache hfind =>
        conv_lhs => rw [addRefTypeSchema]
        conv_rhs => rw [addRefTypeSchema]
        simp [hfind]
      next hfind =>
        split at h
        next schema config2 hrec =>
          conv_lhs => rw [addRefTypeSchema]
          conv_rhs => rw [addRefTypeSchema]
          simp [hfind, ihG (.nominal id) true
            ⟨config.schemaObjects, config.typeCache ++
              [⟨(declOf env id).name,
                allocateSchemaName config.schemaObjects (declOf env id).name, id, none⟩]⟩
            (by rw [hrec]; simp), hrec]
        next msg hrec =>
          conv_lhs => rw [addRefTypeSchema]
          conv_rhs => rw [addRefTypeSchema]
          simp [hfind, ihG (.nominal id) true
            ⟨config.schemaObjects, config.typeCache ++
              [⟨(declOf env id).name,
                allocateSchemaName config.schemaObjects (declOf env id).name, id, none⟩]⟩
            (by rw [hrec]; simp), hrec]
        next hrec => exact absurd rfl h
    · intro ms idxNum idxStr config h
      simp only [extendClass] at h
      split at h
      next indexType heq =>
        split at h
        next ap c1 hrec =>
          have hne2 : expandMembers env fuel (ms.filter memberKept) [] [] c1 ≠ .fuel := by
            intro hq; rw [hq] at h; exact h rfl
          conv_lhs => rw [extendClass]
          conv_rhs => rw [extendClass]
          simp [heq, ihG indexType false config (by rw [hrec]; simp), hrec,
            ihX (ms.filter memberKept) [] [] c1 hne2]
        next msg hrec =>
          conv_lhs => rw [extendClass]
          conv_rhs => rw [extendClass]
          simp [heq, ihG indexType false config (by rw [hrec]; simp), hrec]
        next hrec => exact absurd rfl h
      next heq =>
        have hne2 : expandMembers env fuel (ms.filter memberKept) [] [] config ≠ .fuel := by
          intro hq; rw [hq] at h; exact h rfl
        conv_lhs => rw [extendClass]
        conv_rhs => rw [extendClass]
        simp [heq, ihX (ms.filter memberKept) [] [] config hne2]
    · intro ms props reqd config h
      match ms with
      | [] => rfl
      | m :: rest =>
        simp only [expandMembers] at h
        by_cases hml : isMethodLike m
        · rw [if_pos hml] at h
          conv_lhs => rw [expandMembers]
          conv_rhs => rw [expandMembers]
          simp [hml, ihX rest props reqd config h]
        · rw [if_neg hml] at h
          split at h
          next targetType hst =>
            split at h
            next value c1 hval =>
              have hne2 : expandMembers env fuel rest
                  (setKey props m.name (setPropFragment m value))
                  (if hasQuestionToken m then reqd else reqd ++ [m.name]) c1 ≠ .fuel := by
                intro hq; rw [hq] at h; exact h rfl
              conv_lhs => rw [expandMembers]
              conv_rhs => rw [expandMembers]
              simp [hml, hst, ihG targetType false config (by rw [hval]; simp), hval,
                ihX rest (setKey props m.name (setPropFragment m value))
                  (if hasQuestionToken m then reqd else reqd ++ [m.name]) c1 hne2]
            next msg hval =>
              conv_lhs => rw [expandMembers]
              conv_rhs => rw [expandMembers]
              simp [hml, hst, ihG targetType false config (by rw [hval]; simp), hval]
            next hval => exact absurd rfl h
          next hst =>
            split at h
            next vd hvd =>
              split at h
              next hfn =>
                conv_lhs => rw [expandMembers]
                conv_rhs => rw [expandMembers]
                simp [hml, hst, hvd, hfn, ihX rest props reqd config h]
              next hfn =>
                split at h
                next harrow =>
                  conv_lhs => rw [expandMembers]
                  conv_rhs => rw [expandMembers]
                  simp [hml, hst, hvd, hfn, harrow, ihX rest props reqd config h]
                next harrow =>
                  split at h
                  next value c1 hval =>
                    have hne2 : expandMembers env fuel rest
                        (setKey props m.name (setPropFragment m value))
                        (if hasQuestionToken m then reqd else reqd ++ [m.name]) c1 ≠
                          .fuel := by
                      intro hq; rw [hq] at h; exact h rfl
                    conv_lhs => rw [expandMembers]
                    conv_rhs => rw [expandMembers]
                    simp [hml, hst, hvd, hfn, harrow,
                      ihG m.locationType false config (by rw [hval]; simp), hval,
                      ihX rest (setKey props m.name (setPropFragment m value))
                        (if hasQuestionToken m then reqd else reqd ++ [m.name]) c1 hne2]
                  next msg hval =>
                    conv_lhs => rw [expandMembers]
                    conv_rhs => rw [expandMembers]
                    simp [hml, hst, hvd, hfn, harrow,
                      ihG m.locationType false config (by rw [hval]; simp), hval]
                  next hval => exact absurd rfl h
            next hvd =>
              conv_lhs => rw [expandMembers]
              conv_rhs => rw [expandMembers]
              simp [hml, hst, hvd, ihX rest
                (setKey props m.name (setPropFragment m
                  (.mk none (some "any") none none none none none none none none none)))
                (if hasQuestionToken m then reqd else reqd ++ [m.name]) config h]
    · intro ms flag config h
      match ms with
      | [] => rfl
      | t :: ts =>
        simp only [mapGetSchemaByType] at h
        split at h
        next s c1 hs =>
          have hne2 : mapGetSchemaByType env fuel ts flag c1 ≠ .fuel := by
            intro hq; rw [hq] at h; exact h rfl
          conv_lhs => rw [mapGetSchemaByType]
          conv_rhs => rw [mapGetSchemaByType]
          simp [ihG t flag config (by rw [hs]; simp), hs, ihL ts flag c1 hne2]
        next msg hs =>
          conv_lhs => rw [mapGetSchemaByType]
          conv_rhs => rw [mapGetSchemaByType]
          simp [ihG t flag config (by rw [hs]; simp), hs]
        next hs => exact absurd rfl h

/-- Fuel extension: once `getSchemaByType` completes, any larger fuel
returns the same result. -/
theorem getSchemaByType_ext (env : Env) {f g : Nat} (hfg : f ≤ g) (ty : Ty)
    (flag : Bool) (config : GetSchemaConfig)
    (h : getSchemaByType env f ty flag config ≠ .fuel) :
    getSchemaByType env g ty flag config = getSchemaByType env f ty flag config := by
  obtain ⟨d, rfl⟩ := Nat.exists_eq_add_of_le hfg
  induction d with
  | zero => rfl
  | succ d ihd =>
    have hne : getSchemaByType env (f + d) ty flag config ≠ .fuel := by
      rw [ihd (Nat.le_add_right f d)]; exact h
    calc getSchemaByType env (f + d + 1) ty flag config
        = getSchemaByType env (f + d) ty flag config :=
          (mono_run env (f + d)).1 ty flag config hne
      _ = getSchemaByType env f ty flag config := ihd (Nat.le_add_right f d)

/-- Fuel extension for `addRefTypeSchema`. -/
theorem addRefTypeSchema_ext (env : Env) {f g : Nat} (hfg : f ≤ g) (id : Nat)
    (config : GetSchemaConfig) (h : addRefTypeSchema env f id config ≠ .fuel) :
    addRefTypeSchema env g id config = addRefTypeSchema env f id config := by
  obtain ⟨d, rfl⟩ := Nat.exists_eq_add_of_le hfg
  induction d with
  | zero => rfl
  | succ d ihd =>
    have hne : addRefTypeSchema env (f + d) id config ≠ .fuel := by
      rw [ihd (Nat.le_add_right f d)]; exact h
    calc addRefTypeSchema env (f + d + 1) id config
        = addRefTypeSchema env (f + d) id config :=
          (mono_run env (f + d)).2.1 id config hne
      _ = addRefTypeSchema env f id config := ihd (Nat.le_add_right f d)

/-- Fuel extension for `extendClass`. -/
theorem extendClass_ext (env : Env) {f g : Nat} (hfg : f ≤ g) (ms : List Member)
    (idxNum idxStr : Option Ty) (config : GetSchemaConfig)
    (h : extendClass env f ms idxNum idxStr config ≠ .fuel) :
    extendClass env g ms idxNum idxStr config =
      extendClass env f ms idxNum idxStr config := by
  obtain ⟨d, rfl⟩ := Nat.exists_eq_add_of_le hfg
  induction d with
  | zero => rfl
  | succ d ihd =>
    have hne : extendClass env (f + d) ms idxNum idxStr config ≠ .fuel := by
      rw [ihd (Nat.le_add_right f d)]; exact h
    calc extendClass env (f + d + 1) ms idxNum idxStr config
        = extendClass env (f + d) ms idxNum idxStr config :=
          (mono_run env (f + d)).2.2.1 ms idxNum idxStr config hne
      _ = extendClass env f ms idxNum idxStr config := ihd (Nat.le_add_right f d)

/-- Fuel extension for `expandMembers`. -/
theorem expandMembers_ext (env : Env) {f g : Nat} (hfg : f ≤ g) (ms : List Member)
    (props : List (String × SchemaObject)) (reqd : List String)
    (config : GetSchemaConfig) (h : expandMembers env f ms props reqd config ≠ .fuel) :
    expandMembers env g ms props reqd config =
      expandMembers env f ms props reqd config := by
  obtain ⟨d, rfl⟩ := Nat.exists_eq_add_of_le hfg
  induction d with
  | zero => rfl
  | succ d ihd =>
    have hne : expandMembers env (f + d) ms props reqd config ≠ .fuel := by
      rw [ihd (Nat.le_add_right f d)]; exact h
    calc expandMembers env (f + d + 1) ms props reqd config
        = expandMembers env (f + d) ms props reqd config :=
          (mono_run env (f + d)).2.2.2.1 ms props reqd config hne
      _ = expandMembers env f ms props reqd config := ihd (Nat.le_add_right f d)

/-- Fuel extension for `mapGetSchemaByType`. -/
theorem mapGetSchemaByType_ext (env : Env) {f g : Nat} (hfg : f ≤ g) (ms : List Ty)
    (flag : Bool) (config : GetSchemaConfig)
    (h : mapGetSchemaByType env f ms flag config ≠ .fuel) :
    mapGetSchemaByType env g ms flag config =
      mapGetSchemaByType env f ms flag config := by
  obtain ⟨d, rfl⟩ := Nat.exists_eq_add_of_le hfg
  induction d with
  | zero => rfl
  | succ d ihd =>
    have hne : mapGetSchemaByType env (f + d) ms flag config ≠ .fuel := by
      rw [ihd (Nat.le_add_right f d)]; exact h
    calc mapGetSchemaByType env (f + d + 1) ms flag config
        = mapGetSchemaByType env (f + d) ms flag config :=
          (mono_run env (f + d)).2.2.2.2 ms flag config hne
      _ = mapGetSchemaByType env f ms flag config := ihd (Nat.le_add_right f d)

/-- Every type has positive reference-mode size. -/
theorem tyS0_pos (t : Ty) : 1 ≤ tyS0 t := by
  cases t <;> simp [tyS0] <;> omega

/-- Every type has positive mode-sensitive size. -/
theorem tySI_pos (env : Env) (flag : Bool) (t : Ty) : 1 ≤ tySI env flag t := by
  cases t <;> cases flag <;> simp [tySI] <;> omega

/-- Every member has positive size. -/
theorem memberS0_pos (m : Member) : 1 ≤ memberS0 m := by
  cases m with
  | mk a b c d e => simp [memberS0]; omega

/-- In reference mode the two size measures coincide (auxiliary bounded
form, proved by induction on the size bound). -/
theorem tySI_false_aux (env : Env) : ∀ k : Nat,
    (∀ t, tyS0 t ≤ k → tySI env false t = tyS0 t) ∧
    (∀ ts, tyListS0 ts ≤ k → tyListSI env false ts = tyListS0 ts) := by
  intro k
  induction k with
  | zero =>
    constructor
    · intro t ht
      exact absurd ht (by have := tyS0_pos t; omega)
    · intro ts hts
      cases ts with
      | nil => rfl
      | cons t ts' =>
        have h1 : tyListS0 (t :: ts') = tyS0 t + tyListS0 ts' := by simp [tyListS0]
        rw [h1] at hts
        exact absurd hts (by have := tyS0_pos t; omega)
  | succ k ihk =>
    obtain ⟨ihT, ihL⟩ := ihk
    have hT : ∀ t, tyS0 t ≤ k + 1 → tySI env false t = tyS0 t := by
      intro t ht
      cases t with
      | promise a =>
        have e2 : tyS0 (.promise a) = 1 + tyS0 a := by simp [tyS0]
        have e1 : tySI env false (.promise a) = 1 + tySI env false a := by simp [tySI]
        rw [e2] at ht
        rw [e1, e2, ihT a (by omega)]
      | arr e =>
        have e2 : tyS0 (.arr e) = 1 + tyS0 e := by simp [tyS0]
        have e1 : tySI env false (.arr e) = 1 + tySI env false e := by simp [tySI]
        rw [e2] at ht
        rw [e1, e2, ihT e (by omega)]
      | union bf ms =>
        have e2 : tyS0 (.union bf ms) = 2 + tyListS0 ms := by simp [tyS0]
        have e1 : tySI env false (.union bf ms) = 2 + tyListSI env false ms := by
          simp [tySI]
        rw [e2] at ht
        rw [e1, e2, ihL ms (by omega)]
      | intersection ms =>
        have e2 : tyS0 (.intersection ms) = 2 + tyListS0 ms := by simp [tyS0]
        have e1 : tySI env false (.intersection ms) = 2 + tyListSI env false ms := by
          simp [tySI]
        rw [e2] at ht
        rw [e1, e2, ihL ms (by omega)]
      | nominal id =>
        have e2 : tyS0 (.nominal id) = 2 := by simp [tyS0]
        have e1 : tySI env false (.nominal id) = 2 := by simp [tySI]
        rw [e1, e2]
      | anon arrow ms i1 i2 =>
        have e2 : tyS0 (.anon arrow ms i1 i2) =
            3 + memberListS0 ms + optTyS0 i1 + optTyS0 i2 := by simp [tyS0]
        have e1 : tySI env false (.anon arrow ms i1 i2) =
            3 + memberListS0 ms + optTyS0 i1 + optTyS0 i2 := by simp [tySI]
        rw [e1, e2]
      | enumLiteral v =>
        have e2 : tyS0 (.enumLiteral v) = 1 := by simp [tyS0]
        have e1 : tySI env false (.enumLiteral v) = 1 := by simp [tySI]
        rw [e1, e2]
      | other s =>
        have e2 : tyS0 (.other s) = 1 := by simp [tyS0]
        have e1 : tySI env false (.other s) = 1 := by simp [tySI]
        rw [e1, e2]
    refine ⟨hT, ?_⟩
    intro ts hts
    cases ts with
    | nil => rfl
    | cons t ts' =>
      have e2 : tyListS0 (t :: ts') = tyS0 t + tyListS0 ts' := by simp [tyListS0]
      have e1 : tyListSI env false (t :: ts') =
          tySI env false t + tyListSI env false ts' := by simp [tyListSI]
      rw [e2] at hts
      have hp := tyS0_pos t
      rw [e1, e2, hT t (by omega), ihL ts' (by omega)]

/-- In reference mode (`extendClass` flag cleared) the mode-sensitive size
equals the plain size. -/
theorem tySI_false_eq (env : Env) (t : Ty) : tySI env false t = tyS0 t :=
  (tySI_false_aux env (tyS0 t)).1 t le_rfl

/-- Filtering a member list never increases its total size. -/
theorem memberListS0_filter_le (p : Member → Bool) (ms : List Member) :
    memberListS0 (ms.filter p) ≤ memberListS0 ms := by
  induction ms with
  | nil => simp
  | cons m rest ih =>
    have e : ∀ (x : Member) (l : List Member),
        memberListS0 (x :: l) = memberS0 x + memberListS0 l := fun x l => by
      simp [memberListS0]
    by_cases hp : p m = true
    · rw [List.filter_cons_of_pos hp, e, e]
      exact Nat.add_le_add_left ih _
    · rw [List.filter_cons_of_neg (by simpa using hp), e]
      exact le_trans ih (Nat.le_add_left _ _)

/-- Member-list well-formedness is membership-wise. -/
theorem memberListWFb_iff (n : Nat) (ms : List Member) :
    memberListWFb n ms = true ↔ ∀ x ∈ ms, memberWFb n x = true := by
  induction ms with
  | nil => simp [memberListWFb]
  | cons m rest ih => simp [memberListWFb, Bool.and_eq_true, ih, List.forall_mem_cons]

/-- Filtering preserves member-list well-formedness. -/
theorem memberListWFb_filter (n : Nat) (p : Member → Bool) (ms : List Member)
    (h : memberListWFb n ms = true) : memberListWFb n (ms.filter p) = true := by
  rw [memberListWFb_iff] at h ⊢
  intro x hx
  exact h x (List.mem_of_mem_filter hx)

/-- A well-formed environment has a well-formed declaration at every
in-range identity. -/
theorem envWF_decl (env : Env) (henv : envWFb env = true) (id : Nat)
    (hid : id < env.length) : declWFb env.length (declOf env id) = true := by
  have hget : env.get? id = some (env.get ⟨id, hid⟩) := List.get?_eq_get hid
  have hmem : env.get ⟨id, hid⟩ ∈ env := List.get_mem env id hid
  have hall := List.all_eq_true.mp henv _ hmem
  rw [declOf, hget]
  simpa using hall

/-- A failed identity scan means the identity is uncached. -/
theorem cachedB_of_find_none (cache : List TypeCache) (id : Nat)
    (h : cache.find? (fun c => c.type == id) = none) : cachedB cache id = false := by
  simp only [cachedB, List.any_eq_false]
  intro x hx
  simpa using List.find?_eq_none.mp h x hx

/-- The context invariant never increases the number of uncached
identities. -/
theorem uncached_le_of_ctx (env : Env) (c c' : GetSchemaConfig)
    (h : ctxInv env c c') :
    uncachedCount env c'.typeCache ≤ uncachedCount env c.typeCache := by
  obtain ⟨⟨d, hd, _⟩, _⟩ := h
  rw [hd]
  exact uncachedCount_append_le env _ _

/-- Total fuel exists for every well-formed call: the lexicographic measure
(number of in-range uncached identities, mode-sensitive size) decreases on
every recursive edge, in particular on the cache push of `addRefTypeSchema`
lines 121-122 that guards re-entry into a self-referential nominal type. -/
theorem term_run (env : Env) (henv : envWFb env = true) : ∀ u m : Nat,
    (∀ ty flag config, tyWFb env.length ty = true →
      uncachedCount env config.typeCache ≤ u → tySI env flag ty ≤ m →
      ∃ fuel, getSchemaByType env fuel ty flag config ≠ Res.fuel) ∧
    (∀ id config, id < env.length →
      uncachedCount env config.typeCache ≤ u → 1 ≤ m →
      ∃ fuel, addRefTypeSchema env fuel id config ≠ Res.fuel) ∧
    (∀ ms i1 i2 config, memberListWFb env.length ms = true →
      optTyWFb env.length i1 = true → optTyWFb env.length i2 = true →
      uncachedCount env config.typeCache ≤ u →
      1 + memberListS0 ms + optTyS0 i1 + optTyS0 i2 ≤ m →
      ∃ fuel, extendClass env fuel ms i1 i2 config ≠ Res.fuel) ∧
    (∀ ms props reqd config, memberListWFb env.length ms = true →
      uncachedCount env config.typeCache ≤ u → memberListS0 ms ≤ m →
      ∃ fuel, expandMembers env fuel ms props reqd config ≠ Res.fuel) ∧
    (∀ ms flag config, tyListWFb env.length ms = true →
      uncachedCount env config.typeCache ≤ u → 1 + tyListSI env flag ms ≤ m →
      ∃ fuel, mapGetSchemaByType env fuel ms flag config ≠ Res.fuel) := by
  intro u
  induction u using Nat.strong_induction_on with
  | _ u HU =>
  intro m
  induction m using Nat.strong_induction_on with
  | _ m HM =>
  refine ⟨?_, ?_, ?_, ?_, ?_⟩
  · intro ty flag config hwf hu hm
    have hstep : ∀ t : Ty, isPromiseTy t = false → tyWFb env.length t = true →
        tySI env flag t < m →
        ∃ fuel, getSchemaByType env fuel (.promise t) flag config ≠ Res.fuel := by
      intro t hnp hwf' hlt
      obtain ⟨f, hf⟩ := (HM (tySI env flag t) hlt).1 t flag config hwf' hu le_rfl
      exact ⟨f, by rw [getSchemaByType_promise env f t flag config hnp]; exact hf⟩
    cases ty with
    | promise a =>
      cases a with
      | promise b => exact ⟨1, by simp [getSchemaByType]⟩
      | arr elem =>
        exact hstep (.arr elem) rfl hwf
          (by have hm' : 1 + tySI env flag (Ty.arr elem) ≤ m := hm; omega)
      | union bf ms =>
        exact hstep (.union bf ms) rfl hwf
          (by have hm' : 1 + tySI env flag (Ty.union bf ms) ≤ m := hm; omega)
      | intersection ms =>
        exact hstep (.intersection ms) rfl hwf
          (by have hm' : 1 + tySI env flag (Ty.intersection ms) ≤ m := hm; omega)
      | nominal id =>
        exact hstep (.nominal id) rfl hwf
          (by have hm' : 1 + tySI env flag (Ty.nominal id) ≤ m := hm; omega)
      | anon arrow ms i1 i2 =>
        exact hstep (.anon arrow ms i1 i2) rfl hwf
          (by have hm' : 1 + tySI env flag (Ty.anon arrow ms i1 i2) ≤ m := hm; omega)
      | enumLiteral v =>
        exact hstep (.enumLiteral v) rfl hwf
          (by have hm' : 1 + tySI env flag (Ty.enumLiteral v) ≤ m := hm; omega)
      | other s =>
        exact hstep (.other s) rfl hwf
          (by have hm' : 1 + tySI env flag (Ty.other s) ≤ m := hm; omega)
    | arr elem =>
      have hwf' : tyWFb env.length elem = true := hwf
      have hm' : 1 + tySI env flag elem ≤ m := hm
      obtain ⟨f, hf⟩ := (HM (tySI env flag elem) (by omega)).1 elem flag config hwf' hu le_rfl
      refine ⟨f + 1, ?_⟩
      cases hr : getSchemaByType env f elem flag config with
      | fuel => exact absurd hr hf
      | ok items c1 => simp [getSchemaByType, hr]
      | err msg => simp [getSchemaByType, hr]
    | union bf ms =>
      cases bf with
      | true => exact ⟨1, by simp [getSchemaByType]⟩
      | false =>
        by_cases hall : ms.all isEnumLiteralTy = true
        · exact ⟨1, by simp [getSchemaByType, hall]⟩
        · have hwf' : tyListWFb env.length ms = true := hwf
          have hm' : 2 + tyListSI env flag ms ≤ m := hm
          obtain ⟨f, hf⟩ := (HM (1 + tyListSI env flag ms) (by omega)).2.2.2.2 ms flag
            config hwf' hu le_rfl
          refine ⟨f + 1, ?_⟩
          cases hr : mapGetSchemaByType env f ms flag config with
          | fuel => exact absurd hr hf
          | ok l c1 => simp [getSchemaByType, hall, hr]
          | err msg => simp [getSchemaByType, hall, hr]
    | intersection ms =>
      have hwf' : tyListWFb env.length ms = true := hwf
      have hm' : 2 + tyListSI env flag ms ≤ m := hm
      obtain ⟨f, hf⟩ := (HM (1 + tyListSI env flag ms) (by omega)).2.2.2.2 ms flag
        config hwf' hu le_rfl
      refine ⟨f + 1, ?_⟩
      cases hr : mapGetSchemaByType env f ms flag config with
      | fuel => exact absurd hr hf
      | ok l c1 => simp [getSchemaByType, hr]
      | err msg => simp [getSchemaByType, hr]
    | nominal id =>
      have hid : id < env.length := by simpa [tyWFb] using hwf
      by_cases hdate : (declOf env id).name = "Date"
      · exact ⟨1, by simp [getSchemaByType, hdate]⟩
      · by_cases hobj : (declOf env id).name = "Object"
        · exact ⟨1, by simp [getSchemaByType, hdate, hobj]⟩
        · cases flag with
          | true =>
            have hm2 : 2 + declSize env id ≤ m := by
              have e : tySI env true (.nominal id) = 2 + declSize env id := by simp [tySI]
              rw [e] at hm
              exact hm
            have hde := envWF_decl env henv id hid
            simp only [declWFb, Bool.and_eq_true] at hde
            obtain ⟨⟨hwm, hw1⟩, hw2⟩ := hde
            obtain ⟨f, hf⟩ := (HM (declSize env id) (by omega)).2.2.1
              (declOf env id).members (declOf env id).numberIndexType
              (declOf env id).stringIndexType config hwm hw1 hw2 hu (by simp [declSize])
            refine ⟨f + 1, ?_⟩
            cases hr : extendClass env f (declOf env id).members
                (declOf env id).numberIndexType (declOf env id).stringIndexType config with
            | fuel => exact absurd hr hf
            | ok s c1 => simp [getSchemaByType, hdate, hobj, hr]
            | err msg => simp [getSchemaByType, hdate, hobj, hr]
          | false =>
            have hm2 : (2 : Nat) ≤ m := by
              have e : tySI env false (.nominal id) = 2 := by simp [tySI]
              rw [e] at hm
              exact hm
            obtain ⟨f, hf⟩ := (HM 1 (by omega)).2.1 id config hid hu le_rfl
            refine ⟨f + 1, ?_⟩
            cases hr : addRefTypeSchema env f id config with
            | fuel => exact absurd hr hf
            | ok s c1 => simp [getSchemaByType, hdate, hobj, hr]
            | err msg => simp [getSchemaByType, hdate, hobj, hr]
    | anon arrow ms i1 i2 =>
      have hwf' : (memberListWFb env.length ms && optTyWFb env.length i1 &&
          optTyWFb env.length i2) = true := hwf
      simp only [Bool.and_eq_true] at hwf'
      obtain ⟨⟨hwm, hw1⟩, hw2⟩ := hwf'
      have hm' : 3 + memberListS0 ms + optTyS0 i1 + optTyS0 i2 ≤ m := hm
      obtain ⟨f, hf⟩ := (HM (1 + memberListS0 ms + optTyS0 i1 + optTyS0 i2)
        (by omega)).2.2.1 ms i1 i2 config hwm hw1 hw2 hu le_rfl
      refine ⟨f + 1, ?_⟩
      cases hr : extendClass env f ms i1 i2 config with
      | fuel => exact absurd hr hf
      | ok s c1 => simp [getSchemaByType, hr]
      | err msg => simp [getSchemaByType, hr]
    | enumLiteral v => exact ⟨1, by simp [getSchemaByType]⟩
    | other s => exact ⟨1, by simp [getSchemaByType]⟩
  · intro id config hid hu hm1
    cases hfind : config.typeCache.find? (fun c => c.type == id) with
    | some cache => exact ⟨1, by simp [addRefTypeSchema, hfind]⟩
    | none =>
      have hdrop := uncachedCount_push_lt env config.typeCache
        ⟨(declOf env id).name, allocateSchemaName config.schemaObjects (declOf env id).name,
          id, none⟩ hid (cachedB_of_find_none _ _ hfind)
      obtain ⟨f, hf⟩ := (HU (uncachedCount env (config.typeCache ++
          [⟨(declOf env id).name,
            allocateSchemaName config.schemaObjects (declOf env id).name, id, none⟩]))
          (lt_of_lt_of_le hdrop hu) (2 + declSize env id)).1 (.nominal id) true
        ⟨config.schemaObjects, config.typeCache ++
          [⟨(declOf env id).name,
            allocateSchemaName config.schemaObjects (declOf env id).name, id, none⟩]⟩
        (by simp [tyWFb, hid]) le_rfl (by simp [tySI])
      refine ⟨f + 1, ?_⟩
      cases hr : getSchemaByType env f (.nominal id) true
          ⟨config.schemaObjects, config.typeCache ++
            [⟨(declOf env id).name,
              allocateSchemaName config.schemaObjects (declOf env id).name, id, none⟩]⟩ with
      | fuel => exact absurd hr hf
      | ok schema c2 =>
        simp only [addRefTypeSchema, hfind, hr]
        split <;> simp
      | err msg => simp [addRefTypeSchema, hfind, hr]
  · intro ms i1 i2 config hwm hw1 hw2 hu hm
    have hfwf := memberListWFb_filter env.length memberKept ms hwm
    have hfle := memberListS0_filter_le memberKept ms
    cases horel : i1.orElse (fun _ => i2) with
    | none =>
      obtain ⟨f, hf⟩ := (HM (memberListS0 (ms.filter memberKept)) (by omega)).2.2.2.1
        (ms.filter memberKept) [] [] config hfwf hu le_rfl
      refine ⟨f + 1, ?_⟩
      cases hr : expandMembers env f (ms.filter memberKept) [] [] config with
      | fuel => exact absurd hr hf
      | ok pr c2 => simp [extendClass, horel, hr]
      | err msg => simp [extendClass, horel, hr]
    | some indexType =>
      have hidx : tyWFb env.length indexType = true ∧
          tyS0 indexType ≤ optTyS0 i1 + optTyS0 i2 := by
        cases i1 with
        | some t =>
          have ht : t = indexType := by simpa [Option.orElse] using horel
          constructor
          · rw [← ht]
            simpa [optTyWFb] using hw1
          · rw [← ht]
            exact Nat.le_add_right _ _
        | none =>
          have hi2 : i2 = some indexType := by simpa [Option.orElse] using horel
          constructor
          · rw [hi2] at hw2
            simpa [optTyWFb] using hw2
          · rw [hi2]
            simp [optTyS0]
      obtain ⟨hwidx, hsidx⟩ := hidx
      have hm1 : tySI env false indexType < m := by rw [tySI_false_eq]; omega
      obtain ⟨f1, h1⟩ := (HM (tySI env false indexType) hm1).1 indexType false config
        hwidx hu le_rfl
      cases hr1 : getSchemaByType env f1 indexType false config with
      | fuel => exact absurd hr1 h1
      | err msg => exact ⟨f1 + 1, by simp [extendClass, horel, hr1]⟩
      | ok ap c1 =>
        have hc1 : uncachedCount env c1.typeCache ≤ u :=
          le_trans (uncached_le_of_ctx env config c1
            ((ctxInv_run env f1).1 indexType false config ap c1 hr1)) hu
        obtain ⟨f2, h2⟩ := (HM (memberListS0 (ms.filter memberKept)) (by omega)).2.2.2.1
          (ms.filter memberKept) [] [] c1 hfwf hc1 le_rfl
        cases hr2 : expandMembers env f2 (ms.filter memberKept) [] [] c1 with
        | fuel => exact absurd hr2 h2
        | ok pr c2 =>
          have e1 : getSchemaByType env (max f1 f2) indexType false config = .ok ap c1 := by
            rw [getSchemaByType_ext env (le_max_left f1 f2) indexType false config
              (by rw [hr1]; simp), hr1]
          have e2 : expandMembers env (max f1 f2) (ms.filter memberKept) [] [] c1 =
              .ok pr c2 := by
            rw [expandMembers_ext env (le_max_right f1 f2) (ms.filter memberKept) [] [] c1
              (by rw [hr2]; simp), hr2]
          exact ⟨max f1 f2 + 1, by simp [extendClass, horel, e1, e2]⟩
        | err msg2 =>
          have e1 : getSchemaByType env (max f1 f2) indexType false config = .ok ap c1 := by
            rw [getSchemaByType_ext env (le_max_left f1 f2) indexType false config
              (by rw [hr1]; simp), hr1]
          have e2 : expandMembers env (max f1 f2) (ms.filter memberKept) [] [] c1 =
              .err msg2 := by
            rw [expandMembers_ext env (le_max_right f1 f2) (ms.filter memberKept) [] [] c1
              (by rw [hr2]; simp), hr2]
          exact ⟨max f1 f2 + 1, by simp [extendClass, horel, e1, e2]⟩
  · intro ms props reqd config hwm hu hm
    cases ms with
    | nil => exact ⟨1, by simp [expandMembers]⟩
    | cons mem rest =>
      obtain ⟨mn, mc, mvd, mst, mlt⟩ := mem
      simp only [memberListWFb, memberWFb, Bool.and_eq_true] at hwm
      obtain ⟨⟨hwst, hwlt⟩, hwrest⟩ := hwm
      have em : memberListS0 (⟨mn, mc, mvd, mst, mlt⟩ :: rest) =
          1 + optTyS0 mst + tyS0 mlt + memberListS0 rest := by
        simp [memberListS0, memberS0]
      rw [em] at hm
      by_cases hml : isMethodLike ⟨mn, mc, mvd, mst, mlt⟩ = true
      · obtain ⟨f, hf⟩ := (HM (memberListS0 rest) (by omega)).2.2.2.1 rest props reqd
          config hwrest hu le_rfl
        refine ⟨f + 1, ?_⟩
        cases hr : expandMembers env f rest props reqd config with
        | fuel => exact absurd hr hf
        | ok pr c2 => simp [expandMembers, hml, hr]
        | err msg => simp [expandMembers, hml, hr]
      · cases mst with
        | some targetType =>
          have hwt : tyWFb env.length targetType = true := by simpa [optTyWFb] using hwst
          have eo : optTyS0 (some targetType) = tyS0 targetType := rfl
          rw [eo] at hm
          have hm1 : tySI env false targetType < m := by rw [tySI_false_eq]; omega
          obtain ⟨f1, h1⟩ := (HM (tySI env false targetType) hm1).1 targetType false
            config hwt hu le_rfl
          cases hr1 : getSchemaByType env f1 targetType false config with
          | fuel => exact absurd hr1 h1
          | err msg =>
            exact ⟨f1 + 1, by simp [expandMembers, hml, Member.symbolType, hr1]⟩
          | ok value c1 =>
            have hc1 : uncachedCount env c1.typeCache ≤ u :=
              le_trans (uncached_le_of_ctx env config c1
                ((ctxInv_run env f1).1 targetType false config value c1 hr1)) hu
            obtain ⟨f2, h2⟩ := (HM (memberListS0 rest) (by omega)).2.2.2.1 rest
              (setKey props mn (setPropFragment (Member.mk mn mc mvd (some targetType) mlt)
                value))
              (if hasQuestionToken (Member.mk mn mc mvd (some targetType) mlt) then reqd
               else reqd ++ [mn]) c1 hwrest hc1 le_rfl
            cases hr2 : expandMembers env f2 rest
                (setKey props mn (setPropFragment
                  (Member.mk mn mc mvd (some targetType) mlt) value))
                (if hasQuestionToken (Member.mk mn mc mvd (some targetType) mlt) then reqd
                 else reqd ++ [mn]) c1 with
            | fuel => exact absurd hr2 h2
            | ok pr c2 =>
              have e1 : getSchemaByType env (max f1 f2) targetType false config =
                  .ok value c1 := by
                rw [getSchemaByType_ext env (le_max_left f1 f2) targetType false config
                  (by rw [hr1]; simp), hr1]
              have e2 : expandMembers env (max f1 f2) rest
                  (setKey props mn (setPropFragment
                    (Member.mk mn mc mvd (some targetType) mlt) value))
                  (if hasQuestionToken (Member.mk mn mc mvd (some targetType) mlt) then reqd
                   else reqd ++ [mn]) c1 = .ok pr c2 := by
                rw [expandMembers_ext env (le_max_right f1 f2) rest _ _ c1
                  (by rw [hr2]; simp), hr2]
              exact ⟨max f1 f2 + 1, by
                simp [expandMembers, hml, Member.symbolType, Member.name, e1, e2]⟩
            | err msg2 =>
              have e1 : getSchemaByType env (max f1 f2) targetType false config =
                  .ok value c1 := by
                rw [getSchemaByType_ext env (le_max_left f1 f2) targetType false config
                  (by rw [hr1]; simp), hr1]
              have e2 : expandMembers env (max f1 f2) rest
                  (setKey props mn (setPropFragment
                    (Member.mk mn mc mvd (some targetType) mlt) value))
                  (if hasQuestionToken (Member.mk mn mc mvd (some targetType) mlt) then reqd
                   else reqd ++ [mn]) c1 = .err msg2 := by
                rw [expandMembers_ext env (le_max_right f1 f2) rest _ _ c1
                  (by rw [hr2]; simp), hr2]
              exact ⟨max f1 f2 + 1, by
                simp [expandMembers, hml, Member.symbolType, Member.name, e1, e2]⟩
        | none =>
          cases mvd with
          | some vd =>
            by_cases hfn : (symName env mlt == some "Function") = true
            · obtain ⟨f, hf⟩ := (HM (memberListS0 rest) (by omega)).2.2.2.1 rest props reqd
                config hwrest hu le_rfl
              refine ⟨f + 1, ?_⟩
              cases hr : expandMembers env f rest props reqd config with
              | fuel => exact absurd hr hf
              | ok pr c2 =>
                simp [expandMembers, hml, Member.symbolType, Member.valueDecl,
                  Member.locationType, hfn, hr]
              | err msg =>
                simp [expandMembers, hml, Member.symbolType, Member.valueDecl,
                  Member.locationType, hfn, hr]
            · by_cases harrow : symbolValueDeclIsArrow mlt = true
              · obtain ⟨f, hf⟩ := (HM (memberListS0 rest) (by omega)).2.2.2.1 rest props
                  reqd config hwrest hu le_rfl
                refine ⟨f + 1, ?_⟩
                cases hr : expandMembers env f rest props reqd config with
                | fuel => exact absurd hr hf
                | ok pr c2 =>
                  simp [expandMembers, hml, Member.symbolType, Member.valueDecl,
                    Member.locationType, hfn, harrow, hr]
                | err msg =>
                  simp [expandMembers, hml, Member.symbolType, Member.valueDecl,
                    Member.locationType, hfn, harrow, hr]
              · have hm1 : tySI env false mlt < m := by rw [tySI_false_eq]; omega
                obtain ⟨f1, h1⟩ := (HM (tySI env false mlt) hm1).1 mlt false config
                  hwlt hu le_rfl
                cases hr1 : getSchemaByType env f1 mlt false config with
                | fuel => exact absurd hr1 h1
                | err msg =>
                  exact ⟨f1 + 1, by
                    simp [expandMembers, hml, Member.symbolType, Member.valueDecl,
                      Member.locationType, hfn, harrow, hr1]⟩
                | ok value c1 =>
                  have hc1 : uncachedCount env c1.typeCache ≤ u :=
                    le_trans (uncached_le_of_ctx env config c1
                      ((ctxInv_run env f1).1 mlt false config value c1 hr1)) hu
                  obtain ⟨f2, h2⟩ := (HM (memberListS0 rest) (by omega)).2.2.2.1 rest
                    (setKey props mn (setPropFragment (Member.mk mn mc (some vd) none mlt)
                      value))
                    (if hasQuestionToken (Member.mk mn mc (some vd) none mlt) then reqd
                     else reqd ++ [mn]) c1 hwrest hc1 le_rfl
                  cases hr2 : expandMembers env f2 rest
                      (setKey props mn (setPropFragment
                        (Member.mk mn mc (some vd) none mlt) value))
                      (if hasQuestionToken (Member.mk mn mc (some vd) none mlt) then reqd
                       else reqd ++ [mn]) c1 with
                  | fuel => exact absurd hr2 h2
                  | ok pr c2 =>
                    have e1 : getSchemaByType env (max f1 f2) mlt false config =
                        .ok value c1 := by
                      rw [getSchemaByType_ext env (le_max_left f1 f2) mlt false config
                        (by rw [hr1]; simp), hr1]
                    have e2 : expandMembers env (max f1 f2) rest
                        (setKey props mn (setPropFragment
                          (Member.mk mn mc (some vd) none mlt) value))
                        (if hasQuestionToken (Member.mk mn mc (some vd) none mlt) then reqd
                         else reqd ++ [mn]) c1 = .ok pr c2 := by
                      rw [expandMembers_ext env (le_max_right f1 f2) rest _ _ c1
                        (by rw [hr2]; simp), hr2]
                    exact ⟨max f1 f2 + 1, by
                      simp [expandMembers, hml, Member.symbolType, Member.valueDecl,
                        Member.locationType, Member.name, hfn, harrow, e1, e2]⟩
                  | err msg2 =>
                    have e1 : getSchemaByType env (max f1 f2) mlt false config =
                        .ok value c1 := by
                      rw [getSchemaByType_ext env (le_max_left f1 f2) mlt false config
                        (by rw [hr1]; simp), hr1]
                    have e2 : expandMembers env (max f1 f2) rest
                        (setKey props mn (setPropFragment
                          (Member.mk mn mc (some vd) none mlt) value))
                        (if hasQuestionToken (Member.mk mn mc (some vd) none mlt) then reqd
                         else reqd ++ [mn]) c1 = .err msg2 := by
                      rw [expandMembers_ext env (le_max_right f1 f2) rest _ _ c1
                        (by rw [hr2]; simp), hr2]
                    exact ⟨max f1 f2 + 1, by
                      simp [expandMembers, hml, Member.symbolType, Member.valueDecl,
                        Member.locationType, Member.name, hfn, harrow, e1, e2]⟩
          | none =>
            obtain ⟨f, hf⟩ := (HM (memberListS0 rest) (by omega)).2.2.2.1 rest
              (setKey props mn (setPropFragment (Member.mk mn mc none none mlt)
                (.mk none (some "any") none none none none none none none none none)))
              (if hasQuestionToken (Member.mk mn mc none none mlt) then reqd
               else reqd ++ [mn]) config hwrest hu le_rfl
            refine ⟨f + 1, ?_⟩
            cases hr : expandMembers env f rest
                (setKey props mn (setPropFragment (Member.mk mn mc none none mlt)
                  (.mk none (some "any") none none none none none none none none none)))
                (if hasQuestionToken (Member.mk mn mc none none mlt) then reqd
                 else reqd ++ [mn]) config with
            | fuel => exact absurd hr hf
            | ok pr c2 =>
              simp [expandMembers, hml, Member.symbolType, Member.valueDecl, Member.name,
                hr]
            | err msg =>
              simp [expandMembers, hml, Member.symbolType, Member.valueDecl, Member.name,
                hr]
  · intro ms flag config hwt hu hm
    cases ms with
    | nil => exact ⟨1, by simp [mapGetSchemaByType]⟩
    | cons t ts =>
      have hw : tyWFb env.length t = true ∧ tyListWFb env.length ts = true := by
        simpa [tyListWFb, Bool.and_eq_true] using hwt
      obtain ⟨hwt1, hwts⟩ := hw
      have el : tyListSI env flag (t :: ts) = tySI env flag t + tyListSI env flag ts := by
        simp [tyListSI]
      rw [el] at hm
      have hp := tySI_pos env flag t
      have hm1 : tySI env flag t < m := by omega
      obtain ⟨f1, h1⟩ := (HM (tySI env flag t) hm1).1 t flag config hwt1 hu le_rfl
      cases hr1 : getSchemaByType env f1 t flag config with
      | fuel => exact absurd hr1 h1
      | err msg => exact ⟨f1 + 1, by simp [mapGetSchemaByType, hr1]⟩
      | ok s c1 =>
        have hc1 : uncachedCount env c1.typeCache ≤ u :=
          le_trans (uncached_le_of_ctx env config c1
            ((ctxInv_run env f1).1 t flag config s c1 hr1)) hu
        obtain ⟨f2, h2⟩ := (HM (1 + tyListSI env flag ts) (by omega)).2.2.2.2 ts flag c1
          hwts hc1 le_rfl
        cases hr2 : mapGetSchemaByType env f2 ts flag c1 with
        | fuel => exact absurd hr2 h2
        | ok l c2 =>
          have e1 : getSchemaByType env (max f1 f2) t flag config = .ok s c1 := by
            rw [getSchemaByType_ext env (le_max_left f1 f2) t flag config
              (by rw [hr1]; simp), hr1]
          have e2 : mapGetSchemaByType env (max f1 f2) ts flag c1 = .ok l c2 := by
            rw [mapGetSchemaByType_ext env (le_max_right f1 f2) ts flag c1
              (by rw [hr2]; simp), hr2]
          exact ⟨max f1 f2 + 1, by simp [mapGetSchemaByType, e1, e2]⟩
        | err msg2 =>
          have e1 : getSchemaByType env (max f1 f2) t flag config = .ok s c1 := by
            rw [getSchemaByType_ext env (le_max_left f1 f2) t flag config
              (by rw [hr1]; simp), hr1]
          have e2 : mapGetSchemaByType env (max f1 f2) ts flag c1 = .err msg2 := by
            rw [mapGetSchemaByType_ext env (le_max_right f1 f2) ts flag c1
              (by rw [hr2]; simp), hr2]
          exact ⟨max f1 f2 + 1, by simp [mapGetSchemaByType, e1, e2]⟩

/-- C3: for every type graph whose cycles pass only through nominal
class-or-interface identities (in this embedding, every cycle does: the only
back-edges are nominal identities into the environment, and well-formedness
bounds them), `getSchemaByType` terminates — some finite fuel suffices; and
for a directly self-referential nominal type the cache entry pushed before
member expansion makes the recursive occurrence resolve to a `$ref` of the
already-assigned name, so the registered fragment contains that `$ref`
(`("next", refSchema "Node")`) rather than an unboundedly nested expansion. -/
theorem C3_cache_guarded_termination (env : Env) (ty : Ty) (flag : Bool)
    (config : GetSchemaConfig) (henv : envWFb env = true)
    (hty : tyWFb env.length ty = true) :
    (∃ fuel, getSchemaByType env fuel ty flag config ≠ Res.fuel) ∧
    getSchemaByType envNode 20 (.nominal 0) false ⟨[], []⟩ =
      .ok (refSchema "Node")
        ⟨[("Node", SchemaObject.mk none (some "object") none none none none none
            (some [("value", SchemaObject.mk none (some "number") none none none none
              none none none none none), ("next", refSchema "Node")])
            (some ["value"]) none none)],
         [⟨"Node", "Node", 0, some (SchemaObject.mk none (some "object") none none none
            none none
            (some [("value", SchemaObject.mk none (some "number") none none none none
              none none none none none), ("next", refSchema "Node")])
            (some ["value"]) none none)⟩]⟩ :=
  ⟨(term_run env henv (uncachedCount env config.typeCache) (tySI env flag ty)).1
      ty flag config hty le_rfl le_rfl,
    rfl⟩

/-- Witness for C3 at the self-referential `Node` environment. -/
theorem C3_cache_guarded_termination_witness :
    envWFb envNode = true ∧ tyWFb envNode.length (.nominal 0) = true ∧
    ((∃ fuel, getSchemaByType envNode fuel (.nominal 0) false ⟨[], []⟩ ≠ Res.fuel) ∧
      getSchemaByType envNode 20 (.nominal 0) false ⟨[], []⟩ =
        .ok (refSchema "Node")
          ⟨[("Node", SchemaObject.mk none (some "object") none none none none none
              (some [("value", SchemaObject.mk none (some "number") none none none none
                none none none none none), ("next", refSchema "Node")])
              (some ["value"]) none none)],
           [⟨"Node", "Node", 0, some (SchemaObject.mk none (some "object") none none none
              none none
              (some [("value", SchemaObject.mk none (some "number") none none none none
                none none none none none), ("next", refSchema "Node")])
              (some ["value"]) none none)⟩]⟩) :=
  ⟨rfl, rfl,
    C3_cache_guarded_termination envNode (.nominal 0) false ⟨[], []⟩ rfl rfl⟩
